import Mathlib

/-!
# Keccak sponge and round of `coverify/euvm` (C reference model)

A shallow embedding of `examples/sha3/c-model/sponge.c` (`sponge`, `padding`)
and `examples/axi4sha3/c-model/round.c` (`r`, `mod`, `sha3_round`).

Conventions of the embedding.

* A byte (`uint8_t`) and a lane (`uint64_t`) are natural numbers; operations
  that can drop bits reduce modulo `2 ^ 64` explicitly.
* A byte buffer is a list of cells; a cell obtained from `malloc` holds `none`
  until it is stored to.  A `(pointer, size)` pair of the C interface is a list
  together with its length.
* Every load and store is bounds checked.  Undefined behaviour of the C program
  (a store outside the allocated block, a load of an uninitialised cell, signed
  overflow of an `int32_t`) is a `Fault`.
* `keccak_f` is declared in `keccak_f.h`, which is not part of the sources at
  hand; `sponge` takes it as a parameter.
* Pointer casts between `uint8_t *` and `uint64_t *` are read on a
  little-endian host.
* A shift of a lane by 64 places or more is undefined in C.  Its value is left
  open: the functions of `round.c` take a function `wide`, and `wide v n` is the
  value of `v >> n` for `n ≥ 64`.  Nothing is assumed of `wide` unless a
  statement says so.
* The `int` arguments of `mod` are integers without bound; `mod_run` is the same
  function with its recursive calls counted and the negations that overflow an
  `int` marked.
-/

namespace Keccak

/-! ## Faults, memory and the state -/

/-- The ways in which a run of the C code leaves defined behaviour. -/
inductive Fault
  | signedOverflow
  | outOfBounds
  | uninitialised
  | diverges
  deriving DecidableEq

/-- A byte buffer: `none` marks a cell that was allocated and never written. -/
abbrev Mem := List (Option Nat)

/-- The largest `int32_t`. -/
def INT32_MAX : Nat := 2147483647

/-- The 5x5 array of lanes `S[x][y]`. -/
abbrev State := Fin 5 → Fin 5 → Nat

/-- The assignment `S[x][y] = v`. -/
def State.set (S : State) (x y : Fin 5) (v : Nat) : State :=
  fun i j => if i = x ∧ j = y then v else S i j

/-- The state after `calloc`: every lane is zero. -/
def zeroState : State := fun _ _ => 0

/-- The values `0, 1, 2, 3, 4` of a loop counter `for (c = 0; c < 5; c++)`. -/
def idx5 : List (Fin 5) := [0, 1, 2, 3, 4]

/-- The store `*(nM + p.1) = p.2` into an allocated block. -/
def store (buf : Mem) (p : Nat × Nat) : Except Fault Mem :=
  if p.1 < buf.length then .ok (buf.set p.1 (some p.2)) else .error .outOfBounds

/-- The value of eight bytes read as a little-endian 64-bit word. -/
def le64 (bs : List Nat) : Nat := bs.foldr (fun b acc => b + 256 * acc) 0

/-- All cells of a list initialised: their contents, else a fault. -/
def initialised : Mem → Except Fault (List Nat)
  | [] => .ok []
  | none :: _ => .error .uninitialised
  | some b :: cs => (initialised cs).map (b :: ·)

/-- The load `*(nM + k)` through a `uint64_t *`: bytes `8k .. 8k+7` of the buffer. -/
def read64 (nM : Mem) (k : Nat) : Except Fault Nat :=
  if 8 * k + 8 ≤ nM.length then
    (initialised ((nM.drop (8 * k)).take 8)).map le64
  else .error .outOfBounds

/-- The eight bytes of a 64-bit word, least significant first. -/
def bytes64 (v : Nat) : List Nat := (List.range 8).map (fun k => v / 256 ^ k % 256)

/-! ## `padding` (sponge.c, lines 50-69) -/

/-- What a run of `padding` does to memory and to `*S`. -/
structure PadTrace where
  /-- The argument of `malloc`. -/
  alloc : Nat
  /-- The stores `*(nM + index) = byte`, in program order. -/
  stores : List (Nat × Nat)
  /-- The value left in `*S`. -/
  size : Nat

/-- The loop `while (i < bound) { *(nM+i) = 0x00; i++; }` (lines 61-64): the final `i`
and the stores performed, appended to `st`. -/
def zero_fill (bound : Nat) (i : Nat) (st : List (Nat × Nat)) : Nat × List (Nat × Nat) :=
  if i < bound then zero_fill bound (i + 1) (st ++ [(i, 0x00)]) else (i, st)
termination_by bound - i

/-- The control flow of `padding` on a message `M` (with `*S = M.length`): the block it
allocates, every store it performs, and the size it reports. -/
def padding_trace (M : List Nat) : PadTrace :=
  let S := M.length
  let i := S
  let newS := S + 72 - S % 72
  let alloc := S + (72 - S % 72)
  -- for (j = 0; j < *S; j++) *(nM+j) = *(M+j);
  let st := M.enumFrom 0
  -- *(nM+i) = 0x01; i++;
  let st := st ++ [(i, 0x01)]
  let i := i + 1
  -- while (i < newS-1) { *(nM+i) = 0x00; i++; }
  let (i, st) := zero_fill (newS - 1) i st
  -- *(nM+i) = 0x80; i++;
  let st := st ++ [(i, 0x80)]
  let i := i + 1
  -- *S = i;
  { alloc := alloc, stores := st, size := i }

/-- The function `padding`: the new buffer and the new `*S`.  The sum `*S + 72` of
line 52 is an `int32_t`; when it does not fit the run is undefined. -/
def padding (M : List Nat) : Except Fault (Mem × Nat) :=
  if INT32_MAX < M.length + 72 then .error .signedOverflow
  else
    let t := padding_trace M
    (t.stores.foldlM store (List.replicate t.alloc none)).map (fun nM => (nM, t.size))

/-! ## `sponge` (sponge.c, lines 10-48) -/

/-- A run of `sponge`; the ghost fields record the calls it made and the passes of its
last loop. -/
structure SpongeRun where
  /-- Ghost: whether `padding` was called (line 15). -/
  padded : Bool
  /-- The buffer `M` and the `size` in force after lines 14-16. -/
  nM : Mem
  size : Nat
  /-- Ghost: the number of calls of `keccak_f` (line 32). -/
  calls : Nat
  /-- The state after the absorbing phase. -/
  S : State
  /-- The eight words of `Z`. -/
  Z : List Nat
  /-- The final value of `b`. -/
  b : Nat
  /-- Ghost: the number of passes of the `while (b < 8)` loop. -/
  passes : Nat

/-- Lines 24-31: the two nested loops that XOR block `i` of the buffer into the state. -/
def xor_phase (nM : Mem) (i : Nat) (S : State) : Except Fault State :=
  let r := 72
  let w := 8
  idx5.foldlM (fun S y =>
    idx5.foldlM (fun S x =>
      if x.val + 5 * y.val < r / w then
        (read64 nM (i * 9 + x.val + 5 * y.val)).map (fun v => S.set x y (S x y ^^^ v))
      else .ok S) S) S

/-- Lines 23-33: the absorbing loop.  Returns the state and the number of `keccak_f`
calls. -/
def absorb (keccak_f : State → State) (nM : Mem) (size : Nat) (S : State) :
    Except Fault (State × Nat) :=
  let r := 72
  (List.range (size / r)).foldlM (fun (acc : State × Nat) i =>
    (xor_phase nM i acc.1).map (fun S1 => (keccak_f S1, acc.2 + 1))) (S, 0)

/-- The read-modify-write `*(Z+b) ^= v` on the eight-word array `Z`. -/
def xor_at (Z : List Nat) (b : Nat) (v : Nat) : Except Fault (List Nat) :=
  match Z[b]? with
  | some z => .ok (Z.set b (z ^^^ v))
  | none => .error .outOfBounds

/-- Lines 38-45: one pass of the two nested loops of the squeezing phase. -/
def squeeze_pass (S : State) (Z : List Nat) (b : Nat) : Except Fault (List Nat × Nat) :=
  let r := 72
  let w := 8
  idx5.foldlM (fun (acc : List Nat × Nat) y =>
    idx5.foldlM (fun (acc : List Nat × Nat) x =>
      if x.val + 5 * y.val < r / w - 1 then
        (xor_at acc.1 acc.2 (S x y)).map (fun Z1 => (Z1, acc.2 + 1))
      else .ok acc) acc) (Z, b)

/-- Lines 37-46: the loop `while (b < 8)`.  The state does not change between passes, so
a pass that leaves `b` where it was would repeat for ever. -/
def squeeze_loop (S : State) (Z : List Nat) (b : Nat) (passes : Nat) :
    Except Fault (List Nat × Nat × Nat) :=
  if b < 8 then
    match squeeze_pass S Z b with
    | .error e => .error e
    | .ok (Z1, b1) =>
      if b < b1 then squeeze_loop S Z1 b1 (passes + 1) else .error .diverges
  else .ok (Z, b, passes)
termination_by 8 - b
decreasing_by omega

/-- Lines 14-16 of `sponge`: whether `padding` was called (a ghost flag), and the buffer
and size in force afterwards. -/
def sponge_prepare (M : List Nat) : Except Fault (Bool × Mem × Nat) :=
  let r := 72
  if M.length % r ≠ 0 then (padding M).map (fun p => (true, p.1, p.2))
  else .ok (false, M.map some, M.length)

/-- Lines 17-47 of `sponge`: absorbing from the all-zero state, then squeezing into eight
zeroed words. -/
def sponge_core (keccak_f : State → State) (padded : Bool) (nM : Mem) (size : Nat) :
    Except Fault SpongeRun :=
  absorb keccak_f nM size zeroState >>= fun (S, calls) =>
  squeeze_loop S (List.replicate 8 0) 0 0 >>= fun (Z, b, passes) =>
  .ok { padded := padded, nM := nM, size := size, calls := calls, S := S, Z := Z, b := b,
        passes := passes }

/-- The function `sponge` on a message `M` (with `size = M.length`), instrumented. -/
def sponge_run (keccak_f : State → State) (M : List Nat) : Except Fault SpongeRun :=
  sponge_prepare M >>= fun (padded, nM, size) => sponge_core keccak_f padded nM size

/-- The function `sponge`: the 64 bytes behind the returned pointer. -/
def sponge (keccak_f : State → State) (M : List Nat) : Except Fault (List Nat) :=
  (sponge_run keccak_f M).map (fun run => (run.Z.map bytes64).flatten)

/-! ## `round.c`: the table `r`, `mod` and `sha3_round` -/

/-- The table `r[5][5]` of rotation offsets (lines 10-15), indexed `r[x][y]`. -/
def r : Fin 5 → Fin 5 → Nat :=
  ![![0, 36, 3, 41, 18],
    ![1, 44, 10, 45, 2],
    ![62, 6, 43, 15, 61],
    ![28, 55, 25, 21, 56],
    ![27, 20, 39, 8, 14]]

/-- The function `mod` (lines 17-25); `%` of C truncates towards zero. -/
def mod (a b : Int) : Int :=
  if b < 0 then mod (-a) (-b)
  else
    let ret := Int.tmod a b
    if ret < 0 then ret + b else ret
termination_by (if b < 0 then 1 else 0 : Nat)
decreasing_by
  have h : ¬ (-b < 0) := by omega
  simp [h, *]

/-- A local array of five lanes; `none` is a lane not yet assigned. -/
abbrev Lanes5 := Fin 5 → Option Nat

/-- A local 5x5 array of lanes; `none` is a lane not yet assigned. -/
abbrev Lanes25 := Fin 5 → Fin 5 → Option Nat

/-- The assignment `B[i][j] = v` on a local array. -/
def Lanes25.set (B : Lanes25) (i j : Fin 5) (v : Nat) : Lanes25 :=
  fun a b => if a = i ∧ b = j then some v else B a b

/-- An `int` used as an index into an array of five entries. -/
def index5 (i : Int) : Except Fault (Fin 5) :=
  if h : 0 ≤ i ∧ i < 5 then .ok ⟨i.toNat, by omega⟩ else .error .outOfBounds

/-- The value of a lane of a local array. -/
def load (c : Option Nat) : Except Fault Nat :=
  match c with
  | some v => .ok v
  | none => .error .uninitialised

/-- The shift `v << n` on `uint64_t`, for `n < 64`: the bits pushed past bit 63 are
dropped.  The code shifts left by an offset of the table `r`, at most 62. -/
def shl64 (v n : Nat) : Nat := (v <<< n) % 2 ^ 64

/-- The shift `v >> n` on `uint64_t`.  C defines it for `n < 64` only; for `n ≥ 64` the
value is `wide v n`, of which nothing is known. -/
def shr64 (wide : Nat → Nat → Nat) (v n : Nat) : Nat :=
  if n < 64 then v >>> n else wide v n

/-- The complement `~v` on `uint64_t`. -/
def not64 (v : Nat) : Nat := (2 ^ 64 - 1) ^^^ v

/-- Lines 33-35: the column parities `C[x]`. -/
def theta_C (A : State) : Lanes5 :=
  idx5.foldl (fun C x =>
    Function.update C x (some (A x 0 ^^^ A x 1 ^^^ A x 2 ^^^ A x 3 ^^^ A x 4))) (fun _ => none)

/-- Lines 36-38: the words `D[x]`. -/
def theta_D (wide : Nat → Nat → Nat) (C : Lanes5) : Except Fault Lanes5 :=
  idx5.foldlM (fun D x => do
    let i ← index5 (Int.tmod ((x.val : Int) + 4) 5)
    let j ← index5 (Int.tmod ((x.val : Int) + 1) 5)
    let ci ← load (C i)
    let cj ← load (C j)
    pure (Function.update D x (some (ci ^^^ (shl64 cj 1 ||| shr64 wide cj 63)))))
    (fun _ => none)

/-- Lines 39-43: `A[x][y] = A[x][y] ^ D[x]`, in place. -/
def theta_A (D : Lanes5) (A : State) : Except Fault State :=
  idx5.foldlM (fun A x =>
    idx5.foldlM (fun A y => do
      let d ← load (D x)
      pure (A.set x y (A x y ^^^ d))) A) A

/-- Lines 46-50: the rotated lanes, stored at their new places in `B`. -/
def rho_pi (wide : Nat → Nat → Nat) (A : State) : Except Fault Lanes25 :=
  idx5.foldlM (fun B x =>
    idx5.foldlM (fun B y => do
      let j ← index5 (mod (2 * (x.val : Int) + 3 * (y.val : Int)) 5)
      pure (B.set y j (shl64 (A x y) (r x y) ||| shr64 wide (A x y) (64 - r x y)))) B)
    (fun _ _ => none)

/-- Lines 53-57: `A[x][y] = B[x][y] ^ (~B[x+1][y] & B[x+2][y])`, overwriting `A`. -/
def chi (B : Lanes25) (A : State) : Except Fault State :=
  idx5.foldlM (fun A x =>
    idx5.foldlM (fun A y => do
      let i1 ← index5 (mod ((x.val : Int) + 1) 5)
      let i2 ← index5 (mod ((x.val : Int) + 2) 5)
      let b0 ← load (B x y)
      let b1 ← load (B i1 y)
      let b2 ← load (B i2 y)
      pure (A.set x y (b0 ^^^ (not64 b1 &&& b2)))) A) A

/-- The function `sha3_round` (lines 27-63), for a value `wide` of the undefined shifts. -/
def sha3_round (wide : Nat → Nat → Nat) (A : State) (RC : Nat) : Except Fault State := do
  let C := theta_C A
  let D ← theta_D wide C
  let A ← theta_A D A
  let B ← rho_pi wide A
  let A ← chi B A
  pure (A.set 0 0 (A 0 0 ^^^ RC))

/-! ## Reference notions, used to state the properties -/

/-- The `k`-th little-endian 64-bit word of a byte sequence. -/
def word64 (bytes : List Nat) (k : Nat) : Nat := le64 ((bytes.drop (8 * k)).take 8)

/-- The `i`-th 72-byte block of a byte sequence. -/
def block72 (bytes : List Nat) (i : Nat) : List Nat := (bytes.drop (72 * i)).take 72

/-- The consecutive whole 72-byte blocks of the first `size` bytes of a byte sequence. -/
def blocks72 (bytes : List Nat) (size : Nat) : List (List Nat) :=
  (List.range (size / 72)).map (block72 bytes)

/-- The state with the nine words of a block XORed into lanes `0 .. 8`, lane `i` being
`S[i mod 5][i / 5]`; the other lanes are kept. -/
def xor_block (blk : List Nat) (S : State) : State :=
  fun x y => if x.val + 5 * y.val < 9 then S x y ^^^ word64 blk (x.val + 5 * y.val) else S x y

/-- Absorbing a sequence of blocks: XOR each block in, then apply the permutation. -/
def absorb_blocks (keccak_f : State → State) (blocks : List (List Nat)) (S : State) : State :=
  blocks.foldl (fun S blk => keccak_f (xor_block blk S)) S

/-- The bytes appended to a message of length `n` by the padding rule: `0x01`, then
`(70 - n mod 72) mod 72` zero bytes, then `0x80`. -/
def pad_bytes (n : Nat) : List Nat :=
  [0x01] ++ List.replicate ((70 - n % 72) % 72) 0x00 ++ [0x80]

/-- The published SHA3-512 digest of the empty string. -/
def sha3_512_empty : List Nat :=
  [0xa6, 0x9f, 0x73, 0xcc, 0xa2, 0x3a, 0x9a, 0xc5, 0xc8, 0xb5, 0x67, 0xdc, 0x18, 0x5a, 0x75, 0x6e,
   0x97, 0xc9, 0x82, 0x16, 0x4f, 0xe2, 0x58, 0x59, 0xe0, 0xd1, 0xdc, 0xc1, 0x47, 0x5c, 0x80, 0xa6,
   0x15, 0xb2, 0x12, 0x3a, 0xf1, 0xf5, 0xf9, 0x4c, 0x11, 0xe3, 0xe9, 0x40, 0x2c, 0x3a, 0xc5, 0x58,
   0xf5, 0x00, 0x19, 0x9d, 0x95, 0xb6, 0xd3, 0xe3, 0x01, 0x75, 0x85, 0x86, 0x28, 0x1d, 0xcd, 0x26]

/-- The index `i mod 5`, for the mathematical remainder of an integer. -/
def idx_mod5 (i : Int) : Fin 5 := ⟨(i % 5).toNat, by omega⟩

/-- Rotation of a 64-bit lane to the left by `n` places, `0 ≤ n < 64`: the low `64 - n`
bits move up by `n`, the high `n` bits move to the bottom. -/
def rotl64 (v n : Nat) : Nat := v % 2 ^ (64 - n) * 2 ^ n + v / 2 ^ (64 - n)

/-- The parity word of column `x`: the XOR of its five lanes. -/
def parity (A : State) (x : Fin 5) : Nat := A x 0 ^^^ A x 1 ^^^ A x 2 ^^^ A x 3 ^^^ A x 4

/-- The diffusion word `D[x] = C[(x-1) mod 5] XOR rotl(C[(x+1) mod 5], 1)`. -/
def diffusion (A : State) (x : Fin 5) : Nat :=
  parity A (idx_mod5 ((x.val : Int) - 1)) ^^^ rotl64 (parity A (idx_mod5 ((x.val : Int) + 1))) 1

/-- The state after the parity and diffusion steps: `A'[x][y] = A[x][y] XOR D[x]`. -/
def theta_ref (A : State) : State := fun x y => A x y ^^^ diffusion A x

/-- The reference round, as a relation between the input state, the round constant and
the output state: some array `B` holds every rotated lane at its new place,
`B[y][(2x+3y) mod 5] = rotl(A'[x][y], r[x][y])`, the output is
`B[x][y] XOR (NOT B[(x+1) mod 5][y] AND B[(x+2) mod 5][y])`, and the round constant is
XORed into lane `(0,0)`. -/
def IsRound (A : State) (RC : Nat) (out : State) : Prop :=
  ∃ B : State,
    (∀ x y : Fin 5, B y (idx_mod5 (2 * (x.val : Int) + 3 * (y.val : Int))) =
      rotl64 (theta_ref A x y) (r x y)) ∧
    ∀ x y : Fin 5, out x y =
      if x = 0 ∧ y = 0 then
        (B x y ^^^ (not64 (B (idx_mod5 ((x.val : Int) + 1)) y) &&&
          B (idx_mod5 ((x.val : Int) + 2)) y)) ^^^ RC
      else
        B x y ^^^ (not64 (B (idx_mod5 ((x.val : Int) + 1)) y) &&&
          B (idx_mod5 ((x.val : Int) + 2)) y)

/-- The array `B` of the reference round as a function of the place: the lane stored at
`B[u][v]` comes from `(x, y) = ((3v + u) mod 5, u)`, the one place with
`(y, (2x+3y) mod 5) = (u, v)`. -/
def rho_pi_ref (A : State) : State :=
  fun u v => rotl64 (A (3 * v + u) u) (r (3 * v + u) u)

/-- The nonlinear step of the reference round. -/
def chi_ref (B : State) : State :=
  fun x y => B x y ^^^ (not64 (B (x + 1) y) &&& B (x + 2) y)

/-- The reference round as a function. -/
def round_ref (A : State) (RC : Nat) : State :=
  (chi_ref (rho_pi_ref (theta_ref A))).set 0 0 (chi_ref (rho_pi_ref (theta_ref A)) 0 0 ^^^ RC)

/-! ## Further notions: the round in closed form, the offsets, calls and bits -/

/-- The lanes after lines 33-43 of `sha3_round`, in the operations of the code. -/
def theta_code (wide : Nat → Nat → Nat) (A : State) : State :=
  fun x y => A x y ^^^
    (parity A (x + 4) ^^^ (shl64 (parity A (x + 1)) 1 ||| shr64 wide (parity A (x + 1)) 63))

/-- The lanes after lines 33-57 of `sha3_round`, before the round constant is added, in
the operations of the code. -/
def round_core (wide : Nat → Nat → Nat) (A : State) : State :=
  chi_ref (fun u v =>
    shl64 (theta_code wide A (3 * v + u) u) (r (3 * v + u) u) |||
      shr64 wide (theta_code wide A (3 * v + u) u) (64 - r (3 * v + u) u))

/-- The step of the walk that assigns the published rotation offsets:
`(x, y) ← (y, (2x + 3y) mod 5)`. -/
def rho_step (p : Fin 5 × Fin 5) : Fin 5 × Fin 5 :=
  (p.2, idx_mod5 (2 * (p.1.val : Int) + 3 * (p.2.val : Int)))

/-- The `t`-th position of the walk that starts at `(1, 0)`. -/
def rho_walk : Nat → Fin 5 × Fin 5
  | 0 => (1, 0)
  | t + 1 => rho_step (rho_walk t)

/-- The published rotation offset of the `t`-th position of the walk:
`(t + 1)(t + 2) / 2 mod 64`. -/
def rho_offset (t : Nat) : Nat := (t + 1) * (t + 2) / 2 % 64

/-- The smallest `int`. -/
def INT_MIN : Int := -2147483648

/-- The function `mod` with its calls counted: the value returned and the number of
recursive calls made.  The negations `-a` and `-b` of line 20 are `int` negations, which
are undefined at `INT_MIN`.  The remainder by `b = 0`, also undefined in C, is not
marked: it is outside every property stated here. -/
def mod_run (a b : Int) : Except Fault (Int × Nat) :=
  if b < 0 then
    if a = INT_MIN ∨ b = INT_MIN then .error .signedOverflow
    else (mod_run (-a) (-b)).map (fun p => (p.1, p.2 + 1))
  else
    let ret := Int.tmod a b
    .ok (if ret < 0 then ret + b else ret, 0)
termination_by (if b < 0 then 1 else 0 : Nat)
decreasing_by
  have h : ¬ (-b < 0) := by omega
  simp [h, *]

/-- Lines 46-50 with the places written recorded: the array `B`, and the positions
`(y, mod(2x+3y, 5))` assigned to, in program order. -/
def rho_pi_writes (wide : Nat → Nat → Nat) (A : State) :
    Except Fault (Lanes25 × List (Fin 5 × Fin 5)) :=
  idx5.foldlM (fun acc x =>
    idx5.foldlM (fun acc y => do
      let j ← index5 (mod (2 * (x.val : Int) + 3 * (y.val : Int)) 5)
      pure (acc.1.set y j (shl64 (A x y) (r x y) ||| shr64 wide (A x y) (64 - r x y)),
        acc.2 ++ [(y, j)])) acc)
    (fun _ _ => none, [])

/-- A state of 64-bit lanes: every lane is below `2 ^ 64`. -/
def Bounded (A : State) : Prop := ∀ x y : Fin 5, A x y < 2 ^ 64

/-- A value of the undefined shift by 64 that does no harm to the rotation idiom of line
48: it sets no bit that the lane does not have.  So it is when the shift yields 0, and
when the shift count is taken modulo 64 and the shift yields the lane itself. -/
def HarmlessWide (wide : Nat → Nat → Nat) : Prop := ∀ v : Nat, v < 2 ^ 64 → v ||| wide v 64 = v

/-- A state that differs from the all-zero state and collides with it when the undefined
shift yields a word of 64 ones: lane `(0,0)` and the columns 2 and 3 are all ones. -/
def collision_state : State :=
  fun x y => if (x = 0 ∧ y = 0) ∨ x = 2 ∨ x = 3 then 2 ^ 64 - 1 else 0

/-- Five 64-bit words seen bit by bit. -/
abbrev Plane := Fin 5 → Fin 64 → Bool

/-- The bits of five words. -/
def plane (C : Fin 5 → Nat) : Plane := fun x z => (C x).testBit z.val

/-- On the bits of the five parity words: add to each bit the bit `a` columns before it
and the bit `a` columns after it and `b` places below.  With `a = 1`, `b = 1` this is
what the parity and diffusion steps do to the parity words. -/
def mixE (a : Fin 5) (b : Fin 64) (P : Plane) : Plane :=
  fun x z => xor (xor (P x z) (P (x - a) z)) (P (x + a) (z - b))

/-- The nonlinear step on one bit position of one row. -/
def chi_row (f : Fin 5 → Bool) : Fin 5 → Bool :=
  fun x => xor (f x) (!(f (x + 1)) && f (x + 2))

/-! ## Lemmas on `padding` -/

@[simp] theorem fin5_val_two : ((2 : Fin 5) : Nat) = 2 := rfl

@[simp] theorem fin5_val_three : ((3 : Fin 5) : Nat) = 3 := rfl

@[simp] theorem fin5_val_four : ((4 : Fin 5) : Nat) = 4 := rfl

theorem zero_fill_ge (bound i : Nat) (st : List (Nat × Nat)) (h : bound ≤ i) :
    zero_fill bound i st = (i, st) := by
  rw [zero_fill, if_neg (by omega)]

theorem zero_fill_eq (k : Nat) : ∀ (i : Nat) (st : List (Nat × Nat)),
    zero_fill (i + k) i st = (i + k, st ++ (List.replicate k 0).enumFrom i) := by
  induction k with
  | zero => intro i st; simp [zero_fill_ge]
  | succ k ih =>
    intro i st
    rw [zero_fill, if_pos (by omega)]
    have h := ih (i + 1) (st ++ [(i, 0x00)])
    have e : i + 1 + k = i + (k + 1) := by omega
    rw [e] at h
    rw [h]
    simp [List.replicate_succ, List.enumFrom_cons]

/-- Storing the values `vals` at consecutive addresses from the first free cell fills the
block from the left, as long as they fit. -/
theorem store_run : ∀ (vals pre : List Nat) (m : Nat), vals.length ≤ m →
    (vals.enumFrom pre.length).foldlM store (pre.map some ++ List.replicate m none) =
      .ok ((pre ++ vals).map some ++ List.replicate (m - vals.length) none) := by
  intro vals
  induction vals with
  | nil => intro pre m _; simp [pure, Except.pure]
  | cons v vs ih =>
    intro pre m hm
    simp only [List.length_cons] at hm
    obtain ⟨m, rfl⟩ : ∃ m1, m = m1 + 1 := ⟨m - 1, by omega⟩
    have hs : store (pre.map some ++ List.replicate (m + 1) none) (pre.length, v) =
        .ok ((pre ++ [v]).map some ++ List.replicate m none) := by
      simp [store, List.replicate_succ]
    have h := ih (pre ++ [v]) m (by omega)
    simp only [List.length_append, List.length_singleton] at h
    simp only [List.enumFrom_cons, List.foldlM_cons, hs, bind, Except.bind, h]
    simp

/-- Storing more consecutive values than the block has free cells runs past its end. -/
theorem store_run_overflow : ∀ (vals pre : List Nat) (m : Nat), m < vals.length →
    (vals.enumFrom pre.length).foldlM store (pre.map some ++ List.replicate m none) =
      .error .outOfBounds := by
  intro vals
  induction vals with
  | nil => intro pre m hm; simp at hm
  | cons v vs ih =>
    intro pre m hm
    simp only [List.length_cons] at hm
    rcases Nat.eq_zero_or_pos m with rfl | hpos
    · have hs : store (pre.map some ++ List.replicate 0 none) (pre.length, v) =
          .error .outOfBounds := by
        simp [store]
      simp only [List.enumFrom_cons, List.foldlM_cons, hs, bind, Except.bind]
    · obtain ⟨m, rfl⟩ : ∃ m1, m = m1 + 1 := ⟨m - 1, by omega⟩
      have hs : store (pre.map some ++ List.replicate (m + 1) none) (pre.length, v) =
          .ok ((pre ++ [v]).map some ++ List.replicate m none) := by
        simp [store, List.replicate_succ]
      have h := ih (pre ++ [v]) m (by omega)
      simp only [List.length_append, List.length_singleton] at h
      simp only [List.enumFrom_cons, List.foldlM_cons, hs, bind, Except.bind, h]

theorem padding_trace_eq (M : List Nat) (h71 : M.length % 72 ≠ 71) :
    padding_trace M =
      { alloc := M.length + 72 - M.length % 72,
        stores := (M ++ pad_bytes M.length).enumFrom 0,
        size := M.length + 72 - M.length % 72 } := by
  have hlt : M.length % 72 < 72 := Nat.mod_lt _ (by decide)
  have hb : M.length + 72 - M.length % 72 - 1 = (M.length + 1) + (70 - M.length % 72) := by
    omega
  have hz : (70 - M.length % 72) % 72 = 70 - M.length % 72 := Nat.mod_eq_of_lt (by omega)
  simp only [padding_trace, hb, zero_fill_eq, pad_bytes, hz]
  simp [List.enumFrom_append]
  omega

/-- One byte short of a block boundary: the loop of zero bytes is not entered, and the
two marker bytes go to the addresses `n` and `n + 1` of a block of `n + 1` bytes. -/
theorem padding_trace_71 (M : List Nat) (h71 : M.length % 72 = 71) :
    padding_trace M =
      { alloc := M.length + 1,
        stores := (M ++ [0x01, 0x80]).enumFrom 0,
        size := M.length + 2 } := by
  have hb : M.length + 72 - M.length % 72 - 1 = M.length := by omega
  have ha : M.length + (72 - M.length % 72) = M.length + 1 := by omega
  simp only [padding_trace, hb, ha, zero_fill_ge M.length (M.length + 1) _ (Nat.le_succ _)]
  simp [List.enumFrom_append]

theorem padding_ok (M : List Nat) (h71 : M.length % 72 ≠ 71)
    (hfit : M.length + 72 ≤ INT32_MAX) :
    padding M =
      .ok ((M ++ pad_bytes M.length).map some, M.length + 72 - M.length % 72) := by
  have hlt : M.length % 72 < 72 := Nat.mod_lt _ (by decide)
  have hz : (70 - M.length % 72) % 72 = 70 - M.length % 72 := Nat.mod_eq_of_lt (by omega)
  have hlen : (M ++ pad_bytes M.length).length = M.length + 72 - M.length % 72 := by
    simp [pad_bytes, hz]; omega
  have h := store_run (M ++ pad_bytes M.length) [] (M.length + 72 - M.length % 72) (by omega)
  rw [padding, if_neg (by omega), padding_trace_eq M h71]
  simp only [List.length_nil, List.map_nil, List.nil_append] at h
  simp only [h, Except.map, hlen]
  simp

theorem padding_71 (M : List Nat) (h71 : M.length % 72 = 71)
    (hfit : M.length + 72 ≤ INT32_MAX) :
    padding M = .error .outOfBounds := by
  have h := store_run_overflow (M ++ [0x01, 0x80]) [] (M.length + 1) (by simp)
  rw [padding, if_neg (by omega), padding_trace_71 M h71]
  simp only [List.length_nil, List.map_nil, List.nil_append] at h
  simp only [h, Except.map]

/-! ## Lemmas on `sponge` -/

theorem initialised_map_some : ∀ l : List Nat, initialised (l.map some) = .ok l := by
  intro l
  induction l with
  | nil => rfl
  | cons a l ih => simp [initialised, ih, Except.map]

theorem read64_map_some (bytes : List Nat) (k : Nat) (h : 8 * k + 8 ≤ bytes.length) :
    read64 (bytes.map some) k = .ok (word64 bytes k) := by
  have e : List.take 8 (List.drop (8 * k) (List.map some bytes)) =
      (List.take 8 (List.drop (8 * k) bytes)).map some := by
    simp [List.map_drop, List.map_take]
  rw [read64, if_pos (by simpa using h), e, initialised_map_some]
  rfl

theorem word64_block72 (bytes : List Nat) (i k : Nat) (hk : k < 9) :
    word64 (block72 bytes i) k = word64 bytes (i * 9 + k) := by
  have e1 : 72 * i + 8 * k = 8 * (i * 9 + k) := by ring
  have e2 : min 8 (72 - 8 * k) = 8 := by omega
  simp [word64, block72, List.drop_take, List.take_take, List.drop_drop, e1, e2]

theorem xor_phase_ok (bytes : List Nat) (i : Nat) (S : State)
    (h : 72 * (i + 1) ≤ bytes.length) :
    xor_phase (bytes.map some) i S = .ok (xor_block (block72 bytes i) S) := by
  have hk : ∀ k, k < 9 →
      read64 (bytes.map some) (i * 9 + k) = .ok (word64 (block72 bytes i) k) := by
    intro k hk
    rw [word64_block72 bytes i k hk]
    exact read64_map_some bytes _ (by omega)
  have h0 := hk 0 (by decide)
  have h1 := hk 1 (by decide)
  have h2 := hk 2 (by decide)
  have h3 := hk 3 (by decide)
  have h4 := hk 4 (by decide)
  have h5 := hk 5 (by decide)
  have h6 := hk 6 (by decide)
  have h7 := hk 7 (by decide)
  have h8 := hk 8 (by decide)
  simp only [Nat.add_zero] at h0
  simp [xor_phase, idx5, List.foldlM, bind, Except.bind, pure, Except.pure, Except.map,
    Nat.add_assoc, h0, h1, h2, h3, h4, h5, h6, h7, h8]
  funext x y
  fin_cases x <;> fin_cases y <;> simp [State.set, xor_block]

theorem absorb_loop_ok (keccak_f : State → State) (bytes : List Nat) :
    ∀ (is : List Nat) (acc : State × Nat), (∀ i ∈ is, 72 * (i + 1) ≤ bytes.length) →
      is.foldlM (fun (acc : State × Nat) i =>
          (xor_phase (bytes.map some) i acc.1).map (fun S1 => (keccak_f S1, acc.2 + 1))) acc =
        .ok (absorb_blocks keccak_f (is.map (block72 bytes)) acc.1, acc.2 + is.length) := by
  intro is
  induction is with
  | nil => intro acc _; rfl
  | cons i is ih =>
    intro acc h
    have hi := xor_phase_ok bytes i acc.1 (h i (by simp))
    have ht := ih (keccak_f (xor_block (block72 bytes i) acc.1), acc.2 + 1)
      (fun j hj => h j (by simp [hj]))
    rw [List.foldlM_cons, hi]
    show List.foldlM _ (keccak_f (xor_block (block72 bytes i) acc.1), acc.2 + 1) is = _
    rw [ht]
    simp [absorb_blocks, Nat.add_assoc, Nat.add_comm 1]

theorem absorb_ok (keccak_f : State → State) (bytes : List Nat) (size : Nat) (S : State)
    (h : size ≤ bytes.length) :
    absorb keccak_f (bytes.map some) size S =
      .ok (absorb_blocks keccak_f (blocks72 bytes size) S, size / 72) := by
  have hr : ∀ i ∈ List.range (size / 72), 72 * (i + 1) ≤ bytes.length := by
    intro i hi
    have := List.mem_range.mp hi
    have := Nat.div_mul_le_self size 72
    omega
  have := absorb_loop_ok keccak_f bytes (List.range (size / 72)) (S, 0) hr
  simpa [absorb, blocks72] using this

theorem squeeze_pass_eight (S : State) (z0 z1 z2 z3 z4 z5 z6 z7 : Nat) :
    squeeze_pass S [z0, z1, z2, z3, z4, z5, z6, z7] 0 =
      .ok ([z0 ^^^ S 0 0, z1 ^^^ S 1 0, z2 ^^^ S 2 0, z3 ^^^ S 3 0, z4 ^^^ S 4 0,
            z5 ^^^ S 0 1, z6 ^^^ S 1 1, z7 ^^^ S 2 1], 8) := rfl

theorem squeeze_loop_eight (S : State) (z0 z1 z2 z3 z4 z5 z6 z7 : Nat) :
    squeeze_loop S [z0, z1, z2, z3, z4, z5, z6, z7] 0 0 =
      .ok ([z0 ^^^ S 0 0, z1 ^^^ S 1 0, z2 ^^^ S 2 0, z3 ^^^ S 3 0, z4 ^^^ S 4 0,
            z5 ^^^ S 0 1, z6 ^^^ S 1 1, z7 ^^^ S 2 1], 8, 1) := by
  rw [squeeze_loop, squeeze_pass_eight]
  simp
  rw [squeeze_loop]
  simp

theorem squeeze_loop_zero (S : State) :
    squeeze_loop S (List.replicate 8 0) 0 0 =
      .ok ([S 0 0, S 1 0, S 2 0, S 3 0, S 4 0, S 0 1, S 1 1, S 2 1], 8, 1) := by
  have h := squeeze_loop_eight S 0 0 0 0 0 0 0 0
  simpa using h

theorem sponge_core_ok (keccak_f : State → State) (padded : Bool) (bytes : List Nat)
    (size : Nat) (h : size ≤ bytes.length) :
    sponge_core keccak_f padded (bytes.map some) size =
      .ok { padded := padded, nM := bytes.map some, size := size, calls := size / 72,
            S := absorb_blocks keccak_f (blocks72 bytes size) zeroState,
            Z := [absorb_blocks keccak_f (blocks72 bytes size) zeroState 0 0,
                  absorb_blocks keccak_f (blocks72 bytes size) zeroState 1 0,
                  absorb_blocks keccak_f (blocks72 bytes size) zeroState 2 0,
                  absorb_blocks keccak_f (blocks72 bytes size) zeroState 3 0,
                  absorb_blocks keccak_f (blocks72 bytes size) zeroState 4 0,
                  absorb_blocks keccak_f (blocks72 bytes size) zeroState 0 1,
                  absorb_blocks keccak_f (blocks72 bytes size) zeroState 1 1,
                  absorb_blocks keccak_f (blocks72 bytes size) zeroState 2 1],
            b := 8, passes := 1 } := by
  rw [sponge_core, absorb_ok keccak_f bytes size zeroState h]
  show (squeeze_loop _ (List.replicate 8 0) 0 0 >>= _) = _
  rw [squeeze_loop_zero]
  rfl

theorem sponge_run_aligned (keccak_f : State → State) (M : List Nat)
    (h : M.length % 72 = 0) :
    sponge_run keccak_f M = sponge_core keccak_f false (M.map some) M.length := by
  simp [sponge_run, sponge_prepare, h, bind, Except.bind]

theorem sponge_run_padded (keccak_f : State → State) (M : List Nat)
    (h0 : M.length % 72 ≠ 0) (h71 : M.length % 72 ≠ 71) (hfit : M.length + 72 ≤ INT32_MAX) :
    sponge_run keccak_f M =
      sponge_core keccak_f true ((M ++ pad_bytes M.length).map some)
        (M.length + 72 - M.length % 72) := by
  simp [sponge_run, sponge_prepare, h0, padding_ok M h71 hfit, bind, Except.bind, Except.map]

/-! ## Lemmas on `mod` -/

theorem tmod_bounds (a b : Int) (hb : 0 < b) : -b < Int.tmod a b ∧ Int.tmod a b < b := by
  refine ⟨?_, Int.tmod_lt_of_pos a hb⟩
  obtain ⟨n, rfl⟩ := Int.eq_ofNat_of_zero_le (le_of_lt hb)
  cases a with
  | ofNat m =>
    have : (0 : Int) ≤ Int.tmod (Int.ofNat m) n := Int.tmod_nonneg _ (Int.ofNat_nonneg m)
    omega
  | negSucc m =>
    have e : Int.tmod (Int.negSucc m) (n : Int) = -((Nat.succ m % n : Nat) : Int) := rfl
    have hn : 0 < n := by omega
    have := Nat.mod_lt (Nat.succ m) hn
    omega

/-- For a positive modulus `mod` is the mathematical remainder. -/
theorem mod_of_pos (a b : Int) (hb : 0 < b) : mod a b = a % b := by
  obtain ⟨hlo, hhi⟩ := tmod_bounds a b hb
  have hdef := Int.tmod_add_tdiv a b
  rw [mod, if_neg (by omega)]
  simp only []
  split
  · next h =>
    have e : a % b = (Int.tmod a b + b) % b := by
      conv_lhs => rw [← hdef]
      rw [Int.add_mul_emod_self_left, Int.add_emod_self]
    rw [e, Int.emod_eq_of_lt (by omega) (by omega)]
  · next h =>
    have e : a % b = (Int.tmod a b) % b := by
      conv_lhs => rw [← hdef]
      rw [Int.add_mul_emod_self_left]
    rw [e, Int.emod_eq_of_lt (by omega) (by omega)]

/-! ## Lemmas on `sha3_round` -/

theorem index5_tmod4 (x : Fin 5) : index5 (Int.tmod ((x.val : Int) + 4) 5) = .ok (x + 4) := by
  fin_cases x <;> rfl

theorem index5_tmod1 (x : Fin 5) : index5 (Int.tmod ((x.val : Int) + 1) 5) = .ok (x + 1) := by
  fin_cases x <;> rfl

theorem index5_mod1 (x : Fin 5) : index5 (mod ((x.val : Int) + 1) 5) = .ok (x + 1) := by
  rw [mod_of_pos _ _ (by decide)]
  fin_cases x <;> rfl

theorem index5_mod2 (x : Fin 5) : index5 (mod ((x.val : Int) + 2) 5) = .ok (x + 2) := by
  rw [mod_of_pos _ _ (by decide)]
  fin_cases x <;> rfl

theorem index5_mod_pi (x y : Fin 5) :
    index5 (mod (2 * (x.val : Int) + 3 * (y.val : Int)) 5) = .ok (2 * x + 3 * y) := by
  rw [mod_of_pos _ _ (by decide)]
  fin_cases x <;> fin_cases y <;> rfl

theorem theta_C_eq (A : State) : theta_C A = fun x => some (parity A x) := by
  funext x
  fin_cases x <;> simp [theta_C, idx5, Function.update, parity]

theorem theta_D_eq (wide : Nat → Nat → Nat) (c : Fin 5 → Nat) :
    theta_D wide (fun x => some (c x)) =
      .ok (fun x => some (c (x + 4) ^^^
        (shl64 (c (x + 1)) 1 ||| shr64 wide (c (x + 1)) 63))) := by
  simp only [theta_D, index5_tmod4, index5_tmod1, load, bind, Except.bind, pure, Except.pure]
  simp only [idx5, List.foldlM, bind, Except.bind, pure, Except.pure]
  congr 1
  funext x
  fin_cases x <;> simp [Function.update]

theorem theta_A_eq (d : Fin 5 → Nat) (A : State) :
    theta_A (fun x => some (d x)) A = .ok (fun x y => A x y ^^^ d x) := by
  simp only [theta_A, load, bind, Except.bind, pure, Except.pure]
  simp only [idx5, List.foldlM, bind, Except.bind, pure, Except.pure]
  congr 1
  funext x y
  fin_cases x <;> fin_cases y <;> simp [State.set]

theorem rho_pi_eq (wide : Nat → Nat → Nat) (A : State) :
    rho_pi wide A = .ok (fun u v => some (shl64 (A (3 * v + u) u) (r (3 * v + u) u) |||
      shr64 wide (A (3 * v + u) u) (64 - r (3 * v + u) u))) := by
  simp only [rho_pi, index5_mod_pi, bind, Except.bind, pure, Except.pure]
  simp only [idx5, List.foldlM, bind, Except.bind, pure, Except.pure]
  congr 1
  funext u v
  fin_cases u <;> fin_cases v <;> simp [Lanes25.set]

theorem chi_eq (b : State) (A : State) :
    chi (fun x y => some (b x y)) A = .ok (chi_ref b) := by
  simp only [chi, index5_mod1, index5_mod2, load, bind, Except.bind, pure, Except.pure]
  simp only [idx5, List.foldlM, bind, Except.bind, pure, Except.pure]
  congr 1
  funext x y
  fin_cases x <;> fin_cases y <;> simp [State.set, chi_ref]

/-- With the right shift taken as the shift of natural numbers, the shift-and-or idiom
is the rotation. -/
theorem rot_shift_eq (v n : Nat) (hv : v < 2 ^ 64) (hn : n < 64) :
    shl64 v n ||| v >>> (64 - n) = rotl64 v n := by
  have hp : (2 : Nat) ^ 64 = 2 ^ (64 - n) * 2 ^ n := by
    rw [← pow_add]; congr 1; omega
  have h1 : shl64 v n = 2 ^ n * (v % 2 ^ (64 - n)) := by
    rw [shl64, Nat.shiftLeft_eq, hp, Nat.mul_mod_mul_right, Nat.mul_comm]
  have h2 : v / 2 ^ (64 - n) < 2 ^ n := by
    rw [Nat.div_lt_iff_lt_mul (by positivity), Nat.mul_comm, ← hp]
    exact hv
  rw [h1, Nat.shiftRight_eq_div_pow, ← Nat.mul_add_lt_is_or h2, rotl64, Nat.mul_comm]

theorem shr64_of_lt (wide : Nat → Nat → Nat) (v n : Nat) (hn : n < 64) :
    shr64 wide v n = v >>> n := by
  rw [shr64, if_pos hn]

/-- For an offset between 1 and 63 both shifts of line 48 are defined and the idiom of
the code computes the rotation, whatever the undefined shifts yield. -/
theorem rot_code_eq (wide : Nat → Nat → Nat) (v n : Nat) (hv : v < 2 ^ 64) (hn0 : 0 < n)
    (hn : n < 64) : shl64 v n ||| shr64 wide v (64 - n) = rotl64 v n := by
  rw [shr64_of_lt wide v (64 - n) (by omega), rot_shift_eq v n hv hn]

/-- For the offset 0 the idiom of the code is the lane ORed with the value of the
undefined shift by 64. -/
theorem rot_code_zero (wide : Nat → Nat → Nat) (v : Nat) (hv : v < 2 ^ 64) :
    shl64 v 0 ||| shr64 wide v (64 - 0) = v ||| wide v 64 := by
  rw [shl64, shr64, if_neg (by decide), Nat.shiftLeft_zero, Nat.mod_eq_of_lt hv]

theorem rotl64_zero (v : Nat) (hv : v < 2 ^ 64) : rotl64 v 0 = v := by
  rw [rotl64, Nat.sub_zero, Nat.mod_eq_of_lt hv, Nat.div_eq_of_lt hv]
  simp

theorem rotl64_lt (v n : Nat) (hv : v < 2 ^ 64) (hn : n < 64) : rotl64 v n < 2 ^ 64 := by
  rw [← rot_shift_eq v n hv hn]
  refine Nat.or_lt_two_pow (Nat.mod_lt _ (by positivity)) ?_
  rw [Nat.shiftRight_eq_div_pow]
  exact lt_of_le_of_lt (Nat.div_le_self _ _) hv

/-- Bit `i` of the rotated lane is bit `i - n` of the lane, counted modulo 64. -/
theorem rotl64_testBit (v n i : Nat) (hv : v < 2 ^ 64) (hn : n < 64) (hi : i < 64) :
    (rotl64 v n).testBit i = v.testBit ((i + 64 - n) % 64) := by
  rw [← rot_shift_eq v n hv hn, Nat.testBit_or, shl64, Nat.testBit_mod_two_pow,
    Nat.testBit_shiftLeft, Nat.testBit_shiftRight]
  by_cases h : n ≤ i
  · have e : (i + 64 - n) % 64 = i - n := by omega
    have hz : v.testBit (64 - n + i) = false :=
      Nat.testBit_lt_two_pow (lt_of_lt_of_le hv (Nat.pow_le_pow_right (by decide) (by omega)))
    simp [e, hz, hi, h]
  · have e : (i + 64 - n) % 64 = 64 - n + i := by omega
    simp [e, h]

theorem r_lt (x y : Fin 5) : r x y < 64 := by
  fin_cases x <;> fin_cases y <;> decide

theorem parity_lt (A : State) (hA : ∀ x y, A x y < 2 ^ 64) (x : Fin 5) :
    parity A x < 2 ^ 64 := by
  unfold parity
  exact Nat.xor_lt_two_pow (Nat.xor_lt_two_pow (Nat.xor_lt_two_pow
    (Nat.xor_lt_two_pow (hA x 0) (hA x 1)) (hA x 2)) (hA x 3)) (hA x 4)

theorem idx_mod5_sub1 (x : Fin 5) : idx_mod5 ((x.val : Int) - 1) = x + 4 := by
  fin_cases x <;> rfl

theorem idx_mod5_add1 (x : Fin 5) : idx_mod5 ((x.val : Int) + 1) = x + 1 := by
  fin_cases x <;> rfl

theorem idx_mod5_add2 (x : Fin 5) : idx_mod5 ((x.val : Int) + 2) = x + 2 := by
  fin_cases x <;> rfl

theorem idx_mod5_pi (x y : Fin 5) :
    idx_mod5 (2 * (x.val : Int) + 3 * (y.val : Int)) = 2 * x + 3 * y := by
  fin_cases x <;> fin_cases y <;> rfl

theorem theta_ref_lt (A : State) (hA : ∀ x y, A x y < 2 ^ 64) (x y : Fin 5) :
    theta_ref A x y < 2 ^ 64 := by
  unfold theta_ref diffusion
  exact Nat.xor_lt_two_pow (hA x y) (Nat.xor_lt_two_pow (parity_lt A hA _)
    (rotl64_lt _ 1 (parity_lt A hA _) (by decide)))

theorem theta_code_eq (wide : Nat → Nat → Nat) (A : State) (hA : ∀ x y, A x y < 2 ^ 64) :
    theta_code wide A = theta_ref A := by
  funext x y
  have h := rot_code_eq wide (parity A (x + 1)) 1 (parity_lt A hA _) (by decide) (by decide)
  simp only [Nat.reduceSub] at h
  rw [theta_code, h, theta_ref, diffusion, idx_mod5_sub1, idx_mod5_add1]

theorem r_pos_of_ne (u v : Fin 5) (h : ¬ (u = 0 ∧ v = 0)) : 0 < r (3 * v + u) u := by
  revert u v; decide

theorem r_source_origin : r (3 * (0 : Fin 5) + 0) 0 = 0 := by decide

/-- The entries of `B` in the operations of the code: away from `B[0][0]` they are the
rotated lanes, whatever the undefined shift yields. -/
theorem rho_code_lane (wide : Nat → Nat → Nat) (A : State) (hA : ∀ x y, A x y < 2 ^ 64)
    (u v : Fin 5) (h : ¬ (u = 0 ∧ v = 0)) :
    shl64 (A (3 * v + u) u) (r (3 * v + u) u) |||
      shr64 wide (A (3 * v + u) u) (64 - r (3 * v + u) u) = rho_pi_ref A u v := by
  rw [rot_code_eq wide _ _ (hA _ _) (r_pos_of_ne u v h) (r_lt _ _), rho_pi_ref]

/-- The entry `B[0][0]` in the operations of the code: lane `(0,0)` ORed with the value of
the undefined shift by 64. -/
theorem rho_code_origin (wide : Nat → Nat → Nat) (A : State) (hA : ∀ x y, A x y < 2 ^ 64) :
    shl64 (A (3 * 0 + 0) 0) (r (3 * 0 + 0) 0) |||
      shr64 wide (A (3 * 0 + 0) 0) (64 - r (3 * 0 + 0) 0) =
        A (3 * 0 + 0) 0 ||| wide (A (3 * 0 + 0) 0) 64 := by
  rw [r_source_origin, rot_code_zero wide _ (hA _ _)]

/-- The code computes the reference round when the undefined shift is harmless. -/
theorem sha3_round_eq (wide : Nat → Nat → Nat) (A : State) (RC : Nat)
    (hA : ∀ x y, A x y < 2 ^ 64) (hw : HarmlessWide wide) :
    sha3_round wide A RC = .ok (round_ref A RC) := by
  have hD : (fun x : Fin 5 => some (parity A (x + 4) ^^^
      (shl64 (parity A (x + 1)) 1 ||| shr64 wide (parity A (x + 1)) 63))) =
      fun x => some (diffusion A x) := by
    funext x
    have := rot_code_eq wide (parity A (x + 1)) 1 (parity_lt A hA _) (by decide) (by decide)
    simp only [Nat.reduceSub] at this
    rw [this, diffusion, idx_mod5_sub1, idx_mod5_add1]
  have hB : (fun u v : Fin 5 => some (shl64 (theta_ref A (3 * v + u) u) (r (3 * v + u) u) |||
      shr64 wide (theta_ref A (3 * v + u) u) (64 - r (3 * v + u) u))) =
      fun u v => some (rho_pi_ref (theta_ref A) u v) := by
    funext u v
    by_cases h : u = 0 ∧ v = 0
    · obtain ⟨rfl, rfl⟩ := h
      rw [rho_code_origin wide _ (theta_ref_lt A hA), hw _ (theta_ref_lt A hA _ _), rho_pi_ref,
        r_source_origin, rotl64_zero _ (theta_ref_lt A hA _ _)]
    · rw [rho_code_lane wide _ (theta_ref_lt A hA) u v h]
  have hT : (fun x y => A x y ^^^ diffusion A x) = theta_ref A := rfl
  simp only [sha3_round, theta_C_eq, theta_D_eq, hD, bind, Except.bind, theta_A_eq, hT,
    rho_pi_eq, hB, chi_eq, pure, Except.pure, round_ref]

/-- The code, on any state and for any value of the undefined shift: a state that does
not depend on the round constant, with the round constant XORed into lane `(0,0)`. -/
theorem sha3_round_code (wide : Nat → Nat → Nat) (A : State) (RC : Nat) :
    sha3_round wide A RC =
      .ok ((round_core wide A).set 0 0 (round_core wide A 0 0 ^^^ RC)) := by
  simp only [sha3_round, theta_C_eq, theta_D_eq, bind, Except.bind, theta_A_eq, rho_pi_eq,
    chi_eq, pure, Except.pure, round_core, theta_code]

theorem lanes_off_origin (x y : Fin 5) (h : y ≠ 0 ∨ x = 1 ∨ x = 2) :
    ¬ (x = 0 ∧ y = 0) ∧ ¬ (x + 1 = 0 ∧ y = 0) ∧ ¬ (x + 2 = 0 ∧ y = 0) := by
  revert x y; decide

/-- The 22 lanes of the result that do not read `B[0][0]` are those of the reference
round, whatever the undefined shift yields. -/
theorem round_core_lane (wide : Nat → Nat → Nat) (A : State) (hA : ∀ x y, A x y < 2 ^ 64)
    (x y : Fin 5) (h : y ≠ 0 ∨ x = 1 ∨ x = 2) :
    round_core wide A x y = chi_ref (rho_pi_ref (theta_ref A)) x y := by
  obtain ⟨h0, h1, h2⟩ := lanes_off_origin x y h
  simp only [round_core, chi_ref, theta_code_eq wide A hA]
  rw [rho_code_lane wide _ (theta_ref_lt A hA) x y h0,
    rho_code_lane wide _ (theta_ref_lt A hA) (x + 1) y h1,
    rho_code_lane wide _ (theta_ref_lt A hA) (x + 2) y h2]

theorem harmless_zero : HarmlessWide (fun _ _ => 0) := fun v _ => Nat.or_zero v

theorem harmless_masked : HarmlessWide (fun v _ => v) := fun v _ => Nat.or_self v

/-- The relational and the functional form of the reference round agree. -/
theorem isRound_iff (A : State) (RC : Nat) (out : State) :
    IsRound A RC out ↔ out = round_ref A RC := by
  have hinv : ∀ u v : Fin 5, 2 * (3 * v + u) + 3 * u = v := by decide
  have hinv2 : ∀ x y : Fin 5, 3 * (2 * x + 3 * y) + y = x := by decide
  constructor
  · rintro ⟨B, hB, hout⟩
    have hBe : B = rho_pi_ref (theta_ref A) := by
      funext u v
      have := hB (3 * v + u) u
      rw [idx_mod5_pi, hinv] at this
      rw [this, rho_pi_ref]
    subst hBe
    funext x y
    rw [hout x y]
    simp only [idx_mod5_add1, idx_mod5_add2, round_ref, State.set, chi_ref]
    split <;> rename_i h
    · obtain ⟨rfl, rfl⟩ := h; rfl
    · rfl
  · rintro rfl
    refine ⟨rho_pi_ref (theta_ref A), ?_, ?_⟩
    · intro x y
      rw [idx_mod5_pi, rho_pi_ref, hinv2]
    · intro x y
      simp only [idx_mod5_add1, idx_mod5_add2, round_ref, State.set, chi_ref]
      split <;> rename_i h
      · obtain ⟨rfl, rfl⟩ := h; rfl
      · rfl

/-! ## Lemmas used by several properties -/

theorem sponge_run_nil (keccak_f : State → State) :
    sponge_run keccak_f [] =
      .ok { padded := false, nM := [], size := 0, calls := 0, S := zeroState,
            Z := List.replicate 8 0, b := 8, passes := 1 } := by
  rw [sponge_run_aligned keccak_f [] rfl]
  exact sponge_core_ok keccak_f false [] 0 (Nat.le_refl _)

theorem sponge_nil (keccak_f : State → State) :
    sponge keccak_f [] = .ok (List.replicate 64 0) := by
  rw [sponge, sponge_run_nil]
  rfl

theorem blocks72_flatten (bytes : List Nat) (k : Nat) :
    ((List.range k).map (block72 bytes)).flatten = bytes.take (72 * k) := by
  induction k with
  | zero => simp
  | succ k ih =>
    rw [List.range_succ, List.map_append, List.flatten_append, ih]
    simp only [List.map_cons, List.map_nil, List.flatten_cons, List.flatten_nil,
      List.append_nil, block72]
    rw [Nat.mul_succ, List.take_add]

theorem bytes64_flatten_length (Z : List Nat) :
    ((Z.map bytes64).flatten).length = 8 * Z.length := by
  induction Z with
  | nil => rfl
  | cons z Z ih =>
    simp only [List.map_cons, List.flatten_cons, List.length_append, ih, List.length_cons]
    simp [bytes64]
    omega

/-! ## The properties -/

/-- Claim C1, as the code has it: `sponge` on the empty message calls neither `padding`
nor `keccak_f`, absorbs no block, and returns 64 zero bytes, whatever `keccak_f` is. -/
theorem sponge_empty_is_zero (keccak_f : State → State) :
    sponge keccak_f [] = .ok (List.replicate 64 0) ∧
    ∃ run, sponge_run keccak_f [] = .ok run ∧ run.padded = false ∧ run.calls = 0 ∧
      run.S = zeroState := by
  exact ⟨sponge_nil keccak_f, _, sponge_run_nil keccak_f, rfl, rfl, rfl⟩

/-- Claim C1, as stated, fails: for no `keccak_f` does `sponge` return the published
SHA3-512 digest of the empty string on the empty message. -/
theorem sponge_empty_not_sha3 :
    ¬ ∃ keccak_f : State → State, sponge keccak_f [] = .ok sha3_512_empty := by
  rintro ⟨keccak_f, h⟩
  rw [sponge_nil] at h
  have h64 : List.replicate 64 0 = sha3_512_empty := Except.ok.inj h
  exact absurd h64 (by decide)

/-- Claim C2 at a message of 71 bytes: `padding` asks `malloc` for 72 bytes, stores the
byte `0x80` at address 72, one past the end of the block, and leaves 73 in `*S`, which is
neither 72 nor a multiple of 72. -/
theorem padding_one_byte_short :
    (padding_trace (List.replicate 71 0)).alloc = 72 ∧
    (padding_trace (List.replicate 71 0)).size = 73 ∧
    (padding_trace (List.replicate 71 0)).size % 72 ≠ 0 ∧
    (72, 0x80) ∈ (padding_trace (List.replicate 71 0)).stores ∧
    padding (List.replicate 71 0) = .error .outOfBounds := by
  have h71 : (List.replicate 71 0).length % 72 = 71 := by simp
  refine ⟨?_, ?_, ?_, ?_, ?_⟩
  · rw [padding_trace_71 _ h71]; simp
  · rw [padding_trace_71 _ h71]; simp
  · rw [padding_trace_71 _ h71]; simp
  · rw [padding_trace_71 _ h71]
    simp [List.enumFrom_append]
  · exact padding_71 _ h71 (by simp [INT32_MAX])

/-- Claim C3: for a message `M` of length `n` with `n mod 72 ≠ 71` (and `n + 72` within
`int32_t`, so that line 52 is defined) the buffer produced by `padding` is `M`, one byte
`0x01`, `(70 - n mod 72) mod 72` zero bytes and one byte `0x80`; its first `n` bytes are
`M` and its length, also the size reported, is `n + 72 - n mod 72`. -/
theorem padding_appends_pad (M : List Nat) (h71 : M.length % 72 ≠ 71)
    (hfit : M.length + 72 ≤ INT32_MAX) :
    ∃ nM : Mem,
      padding M = .ok (nM, M.length + 72 - M.length % 72) ∧
      nM = (M ++ [0x01] ++ List.replicate ((70 - M.length % 72) % 72) 0x00 ++ [0x80]).map some ∧
      nM.take M.length = M.map some ∧
      nM.length = M.length + 72 - M.length % 72 := by
  have hlt : M.length % 72 < 72 := Nat.mod_lt _ (by decide)
  have hz : (70 - M.length % 72) % 72 = 70 - M.length % 72 := Nat.mod_eq_of_lt (by omega)
  refine ⟨_, padding_ok M h71 hfit, ?_, ?_, ?_⟩
  · simp [pad_bytes]
  · simp [List.take_append_eq_append_take]
  · simp [pad_bytes, hz]; omega

/-- The hypotheses of `padding_appends_pad` hold of the three-byte message `abc`. -/
theorem padding_appends_pad_witness :
    ∃ nM : Mem,
      padding [0x61, 0x62, 0x63] = .ok (nM, 72) ∧
      nM = ([0x61, 0x62, 0x63] ++ [0x01] ++ List.replicate 67 0x00 ++ [0x80]).map some ∧
      nM.take 3 = [some 0x61, some 0x62, some 0x63] ∧
      nM.length = 72 :=
  padding_appends_pad [0x61, 0x62, 0x63] (by decide) (by decide)

/-- Claim C4: the one-byte message `[b]` and the 72-byte message `b, 0x01, 69 zero bytes,
0x80` are different, yet `sponge` absorbs the same single 72-byte block for both and
returns the same 64 bytes, whatever `keccak_f` is. -/
theorem sponge_padding_collision (keccak_f : State → State) (b : Nat) :
    [b] ≠ [b] ++ [0x01] ++ List.replicate 69 0x00 ++ [0x80] ∧
    ∃ r1 r2 d,
      sponge_run keccak_f [b] = .ok r1 ∧
      sponge_run keccak_f ([b] ++ [0x01] ++ List.replicate 69 0x00 ++ [0x80]) = .ok r2 ∧
      r1.padded = true ∧ r2.padded = false ∧
      r1.nM = r2.nM ∧ r1.size = 72 ∧ r2.size = 72 ∧
      r1.calls = 1 ∧ r2.calls = 1 ∧
      r1.S = keccak_f (xor_block ([b] ++ [0x01] ++ List.replicate 69 0x00 ++ [0x80]) zeroState) ∧
      r2.S = r1.S ∧
      sponge keccak_f [b] = .ok d ∧
      sponge keccak_f ([b] ++ [0x01] ++ List.replicate 69 0x00 ++ [0x80]) = .ok d ∧
      d.length = 64 := by
  have e1 := sponge_run_padded keccak_f [b] (by simp) (by simp) (by simp [INT32_MAX])
  have e2 := sponge_run_aligned keccak_f ([b] ++ [0x01] ++ List.replicate 69 0x00 ++ [0x80])
    (by simp)
  have hp : [b] ++ pad_bytes [b].length = [b] ++ [0x01] ++ List.replicate 69 0x00 ++ [0x80] := by
    simp [pad_bytes]
  have hl : ([b] ++ [0x01] ++ List.replicate 69 0x00 ++ [0x80]).length = 72 := by simp
  have hs : [b].length + 72 - [b].length % 72 = 72 := by simp
  rw [hp, hs] at e1
  rw [hl] at e2
  have c1 := sponge_core_ok keccak_f true ([b] ++ [0x01] ++ List.replicate 69 0x00 ++ [0x80])
    72 (by simp)
  have c2 := sponge_core_ok keccak_f false ([b] ++ [0x01] ++ List.replicate 69 0x00 ++ [0x80])
    72 (by simp)
  rw [c1] at e1
  rw [c2] at e2
  have hb : blocks72 ([b] ++ [0x01] ++ List.replicate 69 0x00 ++ [0x80]) 72 =
      [[b] ++ [0x01] ++ List.replicate 69 0x00 ++ [0x80]] := rfl
  have s1 := congrArg (Except.map (fun run : SpongeRun => (run.Z.map bytes64).flatten)) e1
  have s2 := congrArg (Except.map (fun run : SpongeRun => (run.Z.map bytes64).flatten)) e2
  refine ⟨by simp, _, _, _, e1, e2, rfl, rfl, rfl, rfl, rfl, rfl, rfl, ?_, rfl, s1, s2, ?_⟩
  · simp only [hb, absorb_blocks, List.foldl_cons, List.foldl_nil]
  · exact bytes64_flatten_length _

/-- Claim C5: on a message whose length `n` is a multiple of 72, `sponge` does not call
`padding`; it works on the message bytes themselves, calls `keccak_f` `n / 72` times, and
the blocks it absorbs are the `n / 72` consecutive 72-byte blocks of the message, which
together make up the message.  For `n = 0` no block is absorbed and `keccak_f` is not
called. -/
theorem sponge_aligned_no_padding (keccak_f : State → State) (M : List Nat)
    (h : M.length % 72 = 0) :
    ∃ run, sponge_run keccak_f M = .ok run ∧
      run.padded = false ∧ run.nM = M.map some ∧ run.size = M.length ∧
      run.calls = M.length / 72 ∧
      run.S = absorb_blocks keccak_f (blocks72 M M.length) zeroState ∧
      (blocks72 M M.length).length = M.length / 72 ∧
      (∀ blk ∈ blocks72 M M.length, blk.length = 72) ∧
      (blocks72 M M.length).flatten = M ∧
      (M.length = 0 → run.calls = 0 ∧ run.S = zeroState) := by
  have e := sponge_run_aligned keccak_f M h
  rw [sponge_core_ok keccak_f false M M.length (Nat.le_refl _)] at e
  have hmul : 72 * (M.length / 72) = M.length := Nat.mul_div_cancel' (Nat.dvd_of_mod_eq_zero h)
  refine ⟨_, e, rfl, rfl, rfl, rfl, rfl, by simp [blocks72], ?_, ?_, ?_⟩
  · intro blk hblk
    simp only [blocks72, List.mem_map, List.mem_range] at hblk
    obtain ⟨i, hi, rfl⟩ := hblk
    simp only [block72, List.length_take, List.length_drop]
    omega
  · rw [blocks72, blocks72_flatten, hmul, List.take_length]
  · intro h0
    simp [blocks72, h0, absorb_blocks]

/-- The hypothesis of `sponge_aligned_no_padding` holds of a message of 144 bytes, which
is absorbed as two blocks. -/
theorem sponge_aligned_no_padding_witness :
    (List.replicate 144 7).length % 72 = 0 ∧
    ∃ run, sponge_run id (List.replicate 144 7) = .ok run ∧
      run.padded = false ∧ run.nM = (List.replicate 144 7).map some ∧
      run.size = (List.replicate 144 7).length ∧
      run.calls = (List.replicate 144 7).length / 72 ∧
      run.S = absorb_blocks id
        (blocks72 (List.replicate 144 7) (List.replicate 144 7).length) zeroState ∧
      (blocks72 (List.replicate 144 7) (List.replicate 144 7).length).length =
        (List.replicate 144 7).length / 72 ∧
      (∀ blk ∈ blocks72 (List.replicate 144 7) (List.replicate 144 7).length,
        blk.length = 72) ∧
      (blocks72 (List.replicate 144 7) (List.replicate 144 7).length).flatten =
        List.replicate 144 7 ∧
      ((List.replicate 144 7).length = 0 → run.calls = 0 ∧ run.S = zeroState) :=
  ⟨by simp, sponge_aligned_no_padding id (List.replicate 144 7) (by simp)⟩

/-- Claim C6: the XOR phase of absorbing block `i` of an initialised buffer succeeds;
for `k = 0 .. 8` it replaces lane `S[k mod 5][k / 5]` by its XOR with the `k`-th
little-endian 64-bit word of that block, and it leaves the sixteen lanes with
`x + 5 y ≥ 9` as they were. -/
theorem xor_phase_lanes (bytes : List Nat) (i : Nat) (S : State)
    (h : 72 * (i + 1) ≤ bytes.length) :
    ∃ S1 : State, xor_phase (bytes.map some) i S = .ok S1 ∧
      (∀ k : Fin 9,
        S1 ⟨k.val % 5, Nat.mod_lt _ (by decide)⟩ ⟨k.val / 5, by omega⟩ =
          S ⟨k.val % 5, Nat.mod_lt _ (by decide)⟩ ⟨k.val / 5, by omega⟩ ^^^
            word64 (block72 bytes i) k.val) ∧
      (∀ x y : Fin 5, 9 ≤ x.val + 5 * y.val → S1 x y = S x y) := by
  refine ⟨_, xor_phase_ok bytes i S h, ?_, ?_⟩
  · intro k
    have hk : (k.val % 5 + 5 * (k.val / 5)) = k.val := Nat.mod_add_div _ _
    have hlt := k.isLt
    simp only [xor_block, hk, hlt, if_true]
  · intro x y hxy
    simp only [xor_block, if_neg (by omega : ¬ x.val + 5 * y.val < 9)]

/-- The hypothesis of `xor_phase_lanes` holds of a buffer that is one block of 72 bytes. -/
theorem xor_phase_lanes_witness :
    ∃ S1 : State, xor_phase ((List.replicate 72 0xff).map some) 0 zeroState = .ok S1 ∧
      (∀ k : Fin 9,
        S1 ⟨k.val % 5, Nat.mod_lt _ (by decide)⟩ ⟨k.val / 5, by omega⟩ =
          zeroState ⟨k.val % 5, Nat.mod_lt _ (by decide)⟩ ⟨k.val / 5, by omega⟩ ^^^
            word64 (block72 (List.replicate 72 0xff) 0) k.val) ∧
      (∀ x y : Fin 5, 9 ≤ x.val + 5 * y.val → S1 x y = zeroState x y) :=
  xor_phase_lanes (List.replicate 72 0xff) 0 zeroState (by decide)

/-- Claim C7: from any state `S` the squeezing loop of `sponge` ends after one pass with
`b = 8`; every access to `Z` is within its eight words, and `Z[i] = S[i mod 5][i / 5]`
for `i = 0 .. 7`, which are 64 bytes of output.  The loop does not call `keccak_f`. -/
theorem squeeze_single_pass (S : State) :
    ∃ Z : List Nat, squeeze_loop S (List.replicate 8 0) 0 0 = .ok (Z, 8, 1) ∧
      Z.length = 8 ∧
      (∀ i : Fin 8, Z[i.val]? = some (S ⟨i.val % 5, Nat.mod_lt _ (by decide)⟩
        ⟨i.val / 5, by omega⟩)) ∧
      ((Z.map bytes64).flatten).length = 64 := by
  refine ⟨_, squeeze_loop_zero S, rfl, ?_, rfl⟩
  intro i
  fin_cases i <;> rfl

/-- Claim C8 and the shift by 64 of line 48.  When the undefined shift is harmless (it
yields 0, or the lane itself as with a count taken modulo 64) `sha3_round` on a state of
64-bit lanes returns the one state that is a reference round of the input.  Whatever the
shift yields, the 22 lanes of the result that do not read `B[0][0]` are those of the
reference round.  When the shift yields 1, the round of the all-zero state with constant 0
has lane `(0,0)` equal to 1, where the reference round has 0: the result is not a
reference round. -/
theorem sha3_round_reference_and_shift :
    (HarmlessWide (fun _ _ => 0) ∧ HarmlessWide (fun v _ => v)) ∧
    (∀ (wide : Nat → Nat → Nat) (A : State) (RC : Nat), Bounded A → HarmlessWide wide →
      ∃ out : State, sha3_round wide A RC = .ok out ∧ IsRound A RC out ∧
        ∀ out1 : State, IsRound A RC out1 → out1 = out) ∧
    (∀ (wide : Nat → Nat → Nat) (A : State) (RC : Nat), Bounded A →
      ∃ out : State, sha3_round wide A RC = .ok out ∧
        ∀ x y : Fin 5, (y ≠ 0 ∨ x = 1 ∨ x = 2) → out x y = round_ref A RC x y) ∧
    (∃ out : State, sha3_round (fun _ _ => 1) zeroState 0 = .ok out ∧ out 0 0 = 1 ∧
      round_ref zeroState 0 0 0 = 0 ∧ ¬ IsRound zeroState 0 out) := by
  refine ⟨⟨harmless_zero, harmless_masked⟩, ?_, ?_, ?_⟩
  · intro wide A RC hA hw
    exact ⟨round_ref A RC, sha3_round_eq wide A RC hA hw, (isRound_iff A RC _).mpr rfl,
      fun out1 h1 => (isRound_iff A RC out1).mp h1⟩
  · intro wide A RC hA
    refine ⟨_, sha3_round_code wide A RC, ?_⟩
    intro x y h
    have h0 := (lanes_off_origin x y h).1
    simp only [State.set, round_ref, if_neg h0]
    exact round_core_lane wide A hA x y h
  · have h1 : round_core (fun _ _ => 1) zeroState 0 0 ^^^ 0 = 1 := by decide
    have h0 : round_ref zeroState 0 0 0 = 0 := by decide
    refine ⟨_, sha3_round_code (fun _ _ => 1) zeroState 0, ?_, h0, ?_⟩
    · simp only [State.set, and_self, if_true]
      exact h1
    · intro hr
      have he := (isRound_iff zeroState 0 _).mp hr
      have h00 := congrFun (congrFun he 0) 0
      simp only [State.set, and_self, if_true] at h00
      rw [h1, h0] at h00
      exact absurd h00 (by decide)

/-- Claim C9 at lane `(0,0)`: the offset `r[0][0]` is 0, so the right shift of line 48 is
by `64 - 0 = 64` places, the full width of the lane; at the other 24 lanes both shift
amounts are between 1 and 63. -/
theorem shift_by_64_at_origin :
    r 0 0 = 0 ∧ 64 - r 0 0 = 64 ∧ ¬ (64 - r 0 0 ≤ 63) ∧
    ∀ x y : Fin 5, ¬ (x = 0 ∧ y = 0) →
      (1 ≤ r x y ∧ r x y ≤ 63) ∧ (1 ≤ 64 - r x y ∧ 64 - r x y ≤ 63) := by
  refine ⟨by decide, by decide, by decide, ?_⟩
  intro x y
  fin_cases x <;> fin_cases y <;> decide

/-- Claim C10: for a positive modulus `b`, `mod a b` lies in `[0, b)` and differs from `a`
by a multiple of `b`; so it does for `b = 5`, and `mod (-1) 5 = 4`. -/
theorem mod_range_congr (a b : Int) (hb : 0 < b) :
    (0 ≤ mod a b ∧ mod a b < b ∧ b ∣ mod a b - a) ∧
    (0 ≤ mod a 5 ∧ mod a 5 < 5 ∧ (5 : Int) ∣ mod a 5 - a) ∧
    mod (-1) 5 = 4 := by
  have key : ∀ c : Int, 0 < c → 0 ≤ mod a c ∧ mod a c < c ∧ c ∣ mod a c - a := by
    intro c hc
    rw [mod_of_pos a c hc]
    refine ⟨Int.emod_nonneg a (by omega), Int.emod_lt_of_pos a hc, ?_⟩
    exact ⟨-(a / c), by have := Int.emod_add_ediv a c; linarith⟩
  refine ⟨key b hb, key 5 (by decide), ?_⟩
  rw [mod_of_pos _ _ (by decide)]
  decide

/-- The hypothesis of `mod_range_congr` holds of `a = -1`, `b = 5`. -/
theorem mod_range_congr_witness :
    (0 ≤ mod (-1) 5 ∧ mod (-1) 5 < 5 ∧ (5 : Int) ∣ mod (-1) 5 - (-1)) ∧
    (0 ≤ mod (-1) 5 ∧ mod (-1) 5 < 5 ∧ (5 : Int) ∣ mod (-1) 5 - (-1)) ∧
    mod (-1) 5 = 4 :=
  mod_range_congr (-1) 5 (by decide)

/-! ## Lemmas on the round constant -/

theorem xor_xor_cancel (c a b : Nat) : (c ^^^ a) ^^^ (c ^^^ b) = a ^^^ b := by
  rw [Nat.xor_comm c a, Nat.xor_assoc, ← Nat.xor_assoc c c b, Nat.xor_self, Nat.zero_xor]

/-- Claim C11: the round constant reaches lane `(0,0)` only.  For every state and every
two round constants the two results agree on the 24 lanes other than `(0,0)`, their
lanes `(0,0)` differ by the XOR of the two constants, and lane `(0,0)` of the result is
that of the round with constant 0, XORed with the constant. -/
theorem round_constant_frame (wide : Nat → Nat → Nat) (A : State) (RC RC1 : Nat) :
    ∃ out out1 out0 : State,
      sha3_round wide A RC = .ok out ∧ sha3_round wide A RC1 = .ok out1 ∧
      sha3_round wide A 0 = .ok out0 ∧
      (∀ x y : Fin 5, ¬ (x = 0 ∧ y = 0) → out x y = out1 x y) ∧
      out 0 0 ^^^ out1 0 0 = RC ^^^ RC1 ∧
      out 0 0 = out0 0 0 ^^^ RC := by
  refine ⟨_, _, _, sha3_round_code wide A RC, sha3_round_code wide A RC1,
    sha3_round_code wide A 0, ?_, ?_, ?_⟩
  · intro x y hxy
    simp only [State.set, if_neg hxy]
  · simp only [State.set, and_self, if_true]
    exact xor_xor_cancel _ _ _
  · simp [State.set]

/-! ## The table of rotation offsets -/

/-- Claim C13: the table `r` holds the published offsets.  `r[0][0] = 0`; the `t`-th
position of the walk from `(1, 0)` with step `(x, y) ← (y, (2x + 3y) mod 5)` holds
`(t + 1)(t + 2) / 2 mod 64` for `t = 0 .. 23`; the walk reaches every position other
than `(0, 0)`; and every offset other than `r[0][0]` is between 1 and 63. -/
theorem r_is_published_table :
    r 0 0 = 0 ∧
    (∀ t : Fin 24, r (rho_walk t.val).1 (rho_walk t.val).2 = rho_offset t.val) ∧
    (∀ x y : Fin 5, ¬ (x = 0 ∧ y = 0) → ∃ t : Fin 24, rho_walk t.val = (x, y)) ∧
    (∀ x y : Fin 5, ¬ (x = 0 ∧ y = 0) → 1 ≤ r x y ∧ r x y ≤ 63) := by
  refine ⟨by decide, by decide, by decide, by decide⟩

/-! ## The stores of `padding` and the calls of `mod` -/

theorem mem_enumFrom_zero_lt (vals : List Nat) (p : Nat × Nat)
    (h : p ∈ vals.enumFrom 0) : p.1 < vals.length := by
  obtain ⟨i, v⟩ := p
  have := List.mem_enumFrom h
  omega

/-- Claim C15 holds of the lengths with `n mod 72 ≠ 71` and fails at the others.  When
`n mod 72 ≠ 71` every store of `padding` is inside the block it allocated.  When
`n mod 72 = 71` the block has `n + 1` bytes and the byte `0x80` is stored at index
`n + 1`; so it is for a message of 71 bytes, where index 72 of a block of 72 bytes is
written and the run is out of bounds. -/
theorem padding_stores_and_block :
    (∀ M : List Nat, M.length % 72 ≠ 71 →
      ∀ p ∈ (padding_trace M).stores, p.1 < (padding_trace M).alloc) ∧
    (∀ M : List Nat, M.length % 72 = 71 →
      (padding_trace M).alloc = M.length + 1 ∧
      (M.length + 1, 0x80) ∈ (padding_trace M).stores) ∧
    (∃ p ∈ (padding_trace (List.replicate 71 0)).stores,
      p = (72, 0x80) ∧ (padding_trace (List.replicate 71 0)).alloc ≤ p.1) ∧
    padding (List.replicate 71 0) = .error .outOfBounds := by
  have h71 : (List.replicate 71 0).length % 72 = 71 := by simp
  refine ⟨?_, ?_, ?_, padding_71 _ h71 (by simp [INT32_MAX])⟩
  · intro M hM p hp
    have hlt : M.length % 72 < 72 := Nat.mod_lt _ (by decide)
    have hz : (70 - M.length % 72) % 72 = 70 - M.length % 72 := Nat.mod_eq_of_lt (by omega)
    rw [padding_trace_eq M hM] at hp ⊢
    have := mem_enumFrom_zero_lt _ p hp
    simp only [List.length_append, pad_bytes, List.length_cons, List.length_nil,
      List.length_replicate, hz] at this
    simp only
    omega
  · intro M hM
    rw [padding_trace_71 M hM]
    simp [List.enumFrom_append]
  · rw [padding_trace_71 _ h71]
    refine ⟨(72, 0x80), ?_, rfl, ?_⟩
    · simp [List.enumFrom_append]
    · simp

theorem mod_run_of_nonneg (a b : Int) (hb : 0 ≤ b) : mod_run a b = .ok (mod a b, 0) := by
  rw [mod_run, if_neg (by omega), mod, if_neg (by omega)]

theorem mod_run_of_neg (a b : Int) (hb : b < 0) (ha : a ≠ INT_MIN) (hb2 : b ≠ INT_MIN) :
    mod_run a b = .ok (mod (-a) (-b), 1) := by
  rw [mod_run, if_pos hb, if_neg (by simp [ha, hb2]), mod_run_of_nonneg _ _ (by omega)]
  rfl

theorem mod_of_neg (a b : Int) (hb : b < 0) : mod a b = mod (-a) (-b) := by
  rw [mod, if_pos hb]

/-- Claim C16: for a negative `b`, with `-a` and `-b` representable, `mod a b` makes
exactly one recursive call and returns `mod (-a) (-b)`, which lies in `[0, -b)` and
differs from `-a` by a multiple of `-b`; it differs from `a` by such a multiple only
when `-b` divides `2 a`.  So `mod 1 (-5) = 4`, which is not congruent to 1 modulo 5. -/
theorem mod_negative_modulus (a b : Int) (hb : b < 0) (ha : a ≠ INT_MIN)
    (hb2 : b ≠ INT_MIN) :
    mod_run a b = .ok (mod (-a) (-b), 1) ∧
    mod a b = mod (-a) (-b) ∧
    0 ≤ mod a b ∧ mod a b < -b ∧
    (-b) ∣ mod a b - (-a) ∧
    ((-b) ∣ mod a b - a ↔ (-b) ∣ 2 * a) ∧
    mod 1 (-5) = 4 ∧ ¬ ((5 : Int) ∣ mod 1 (-5) - 1) := by
  have hpos : 0 < -b := by omega
  have hv : mod a b = (-a) % (-b) := by rw [mod_of_neg a b hb, mod_of_pos _ _ hpos]
  have hdvd : (-b) ∣ mod a b - (-a) := by
    rw [hv]
    exact ⟨-((-a) / (-b)), by have := Int.emod_add_ediv (-a) (-b); linarith⟩
  have h15 : mod 1 (-5) = 4 := by
    rw [mod_of_neg _ _ (by decide), mod_of_pos _ _ (by decide)]; decide
  refine ⟨mod_run_of_neg a b hb ha hb2, mod_of_neg a b hb, ?_, ?_, hdvd, ?_, h15, ?_⟩
  · rw [hv]; exact Int.emod_nonneg _ (by omega)
  · rw [hv]; exact Int.emod_lt_of_pos _ hpos
  · have e : mod a b - a = (mod a b - (-a)) - 2 * a := by ring
    rw [e]
    constructor
    · intro h
      have := Int.dvd_sub hdvd h
      simpa using this
    · intro h
      exact Int.dvd_sub hdvd h
  · rw [h15]; decide

/-- The hypotheses of `mod_negative_modulus` hold of `a = 1`, `b = -5`. -/
theorem mod_negative_modulus_witness :
    mod_run 1 (-5) = .ok (mod (-1) (-(-5)), 1) ∧
    mod 1 (-5) = mod (-1) (-(-5)) ∧
    0 ≤ mod 1 (-5) ∧ mod 1 (-5) < -(-5) ∧
    (-(-5) : Int) ∣ mod 1 (-5) - (-1) ∧
    ((-(-5) : Int) ∣ mod 1 (-5) - 1 ↔ (-(-5) : Int) ∣ 2 * 1) ∧
    mod 1 (-5) = 4 ∧ ¬ ((5 : Int) ∣ mod 1 (-5) - 1) :=
  mod_negative_modulus 1 (-5) (by decide) (by decide) (by decide)

/-! ## The relocation of the lanes -/

theorem rho_pi_writes_eq (wide : Nat → Nat → Nat) (A : State) :
    rho_pi_writes wide A =
      .ok (fun u v => some (shl64 (A (3 * v + u) u) (r (3 * v + u) u) |||
          shr64 wide (A (3 * v + u) u) (64 - r (3 * v + u) u)),
        (idx5.map (fun x => idx5.map (fun y => rho_step (x, y)))).flatten) := by
  simp only [rho_pi_writes, index5_mod_pi, bind, Except.bind, pure, Except.pure]
  simp only [idx5, List.foldlM, bind, Except.bind, pure, Except.pure]
  congr 1
  refine Prod.ext ?_ ?_
  · funext u v
    fin_cases u <;> fin_cases v <;> simp [Lanes25.set]
  · rfl

theorem rho_step_bijective : Function.Bijective rho_step := by
  have hinj : Function.Injective rho_step := by decide
  exact ⟨hinj, Finite.surjective_of_injective hinj⟩

/-- Claim C12: the relocation `(x, y) ↦ (y, mod(2x+3y, 5))` of the loop of lines 46-50 is
a bijection of the 25 positions.  The loop assigns to 25 positions, no two of them the
same, so every entry of `B` is written exactly once and none is overwritten; after the
loop every entry of `B` is initialised, and the nonlinear step reads `B` without
fault. -/
theorem relocation_writes_each_once (wide : Nat → Nat → Nat) (A : State) :
    (∀ x y : Fin 5,
      index5 (mod (2 * (x.val : Int) + 3 * (y.val : Int)) 5) = .ok (rho_step (x, y)).2 ∧
      (rho_step (x, y)).1 = y) ∧
    Function.Bijective rho_step ∧
    ∃ (B : Lanes25) (ws : List (Fin 5 × Fin 5)),
      rho_pi_writes wide A = .ok (B, ws) ∧ rho_pi wide A = .ok B ∧
      ws = (idx5.map (fun x => idx5.map (fun y => rho_step (x, y)))).flatten ∧
      ws.length = 25 ∧ ws.Nodup ∧ (∀ p : Fin 5 × Fin 5, ws.count p = 1) ∧
      (∀ u v : Fin 5, (B u v).isSome = true) ∧
      ∀ A1 : State, ∃ out : State, chi B A1 = .ok out := by
  refine ⟨?_, rho_step_bijective, _, _, rho_pi_writes_eq wide A, rho_pi_eq wide A, rfl,
    by decide,
    by decide, by decide, fun _ _ => rfl, fun A1 => ⟨_, chi_eq _ A1⟩⟩
  intro x y
  rw [index5_mod_pi]
  fin_cases x <;> fin_cases y <;> exact ⟨rfl, rfl⟩

/-! ## One round is a permutation -/

theorem bool_xor_nine (a b c d e f : Bool) :
    xor (xor (xor (xor a b) c) (xor (xor b d) e)) (xor (xor c e) f) = xor (xor a d) f := by
  revert a b c d e f; decide

theorem mixE_double (a : Fin 5) (b : Fin 64) (P : Plane) :
    mixE a b (mixE a b P) = mixE (a + a) (b + b) P := by
  funext x z
  have e1 : x - a - a = x - (a + a) := by abel
  have e2 : x - a + a = x := by abel
  have e3 : x + a - a = x := by abel
  have e4 : x + a + a = x + (a + a) := by abel
  have e5 : z - b - b = z - (b + b) := by abel
  simp only [mixE, e1, e2, e3, e4, e5]
  exact bool_xor_nine _ _ _ _ _ _

theorem mixE_double_eq (a : Fin 5) (b : Fin 64) (P Q : Plane) (h : mixE a b P = mixE a b Q) :
    mixE (a + a) (b + b) P = mixE (a + a) (b + b) Q := by
  rw [← mixE_double, ← mixE_double, h]

theorem chi_row_injective : Function.Injective chi_row := by decide

/-- Sixty-four applications of the mixing of the parity words amount to a mixing inside
each bit position. -/
theorem mixE_chain (P Q : Plane) (h : mixE 1 1 P = mixE 1 1 Q) : mixE 4 0 P = mixE 4 0 Q := by
  have h2 : mixE 2 2 P = mixE 2 2 Q := mixE_double_eq 1 1 P Q h
  have h4 : mixE 4 4 P = mixE 4 4 Q := mixE_double_eq 2 2 P Q h2
  have h8 : mixE 3 8 P = mixE 3 8 Q := mixE_double_eq 4 4 P Q h4
  have h16 : mixE 1 16 P = mixE 1 16 Q := mixE_double_eq 3 8 P Q h8
  have h32 : mixE 2 32 P = mixE 2 32 Q := mixE_double_eq 1 16 P Q h16
  exact mixE_double_eq 2 32 P Q h32

theorem bool_row_cube (f : Fin 5 → Bool) (x : Fin 5) :
    mixE 4 0 (mixE 4 0 (mixE 4 0 (fun u _ => f u))) x 0 = f x := by
  revert f x; decide

theorem mixE_cube (P : Plane) : mixE 4 0 (mixE 4 0 (mixE 4 0 P)) = P := by
  funext x z
  have h := bool_row_cube (fun u => P u z) x
  simp only [mixE, sub_zero] at h ⊢
  exact h

theorem mixE_injective : Function.Injective (mixE 1 1) := by
  intro P Q h
  have h3 := mixE_chain P Q h
  rw [← mixE_cube P, ← mixE_cube Q, h3]

theorem eq_of_testBit_lt64 (v w : Nat) (hv : v < 2 ^ 64) (hw : w < 2 ^ 64)
    (h : ∀ i : Fin 64, v.testBit i.val = w.testBit i.val) : v = w := by
  apply Nat.eq_of_testBit_eq
  intro i
  by_cases hi : i < 64
  · exact h ⟨i, hi⟩
  · have hp : (2 : Nat) ^ 64 ≤ 2 ^ i := Nat.pow_le_pow_right (by decide) (by omega)
    rw [Nat.testBit_lt_two_pow (lt_of_lt_of_le hv hp),
      Nat.testBit_lt_two_pow (lt_of_lt_of_le hw hp)]

theorem plane_injective (C D : Fin 5 → Nat) (hC : ∀ x, C x < 2 ^ 64) (hD : ∀ x, D x < 2 ^ 64)
    (h : plane C = plane D) : C = D := by
  funext x
  exact eq_of_testBit_lt64 _ _ (hC x) (hD x) (fun i => congrFun (congrFun h x) i)

theorem diffusion_eq (A : State) (x : Fin 5) :
    diffusion A x = parity A (x + 4) ^^^ rotl64 (parity A (x + 1)) 1 := by
  rw [diffusion, idx_mod5_sub1, idx_mod5_add1]

theorem nat_xor_five (a0 a1 a2 a3 a4 d : Nat) :
    (a0 ^^^ d) ^^^ (a1 ^^^ d) ^^^ (a2 ^^^ d) ^^^ (a3 ^^^ d) ^^^ (a4 ^^^ d) =
      (a0 ^^^ a1 ^^^ a2 ^^^ a3 ^^^ a4) ^^^ d := by
  apply Nat.eq_of_testBit_eq
  intro i
  simp only [Nat.testBit_xor]
  generalize a0.testBit i = b0
  generalize a1.testBit i = b1
  generalize a2.testBit i = b2
  generalize a3.testBit i = b3
  generalize a4.testBit i = b4
  generalize d.testBit i = e
  revert b0 b1 b2 b3 b4 e
  decide

theorem parity_theta_ref (A : State) (x : Fin 5) :
    parity (theta_ref A) x = parity A x ^^^ diffusion A x := by
  simp only [parity, theta_ref]
  exact nat_xor_five _ _ _ _ _ _

theorem fin64_sub_one_val (z : Fin 64) : (z - 1).val = (z.val + 64 - 1) % 64 := by
  rw [Fin.coe_sub]
  have := z.isLt
  simp only [Fin.val_one]
  omega

theorem plane_mix (C : Fin 5 → Nat) (hC : ∀ x, C x < 2 ^ 64) :
    plane (fun x => C x ^^^ (C (x + 4) ^^^ rotl64 (C (x + 1)) 1)) = mixE 1 1 (plane C) := by
  funext x z
  have e : x - 1 = x + 4 := by fin_cases x <;> rfl
  simp only [plane, mixE, Nat.testBit_xor,
    rotl64_testBit _ 1 z.val (hC _) (by decide) z.isLt, fin64_sub_one_val, e, Bool.xor_assoc]

theorem theta_ref_injective (A A1 : State) (hA : Bounded A) (hA1 : Bounded A1)
    (h : theta_ref A = theta_ref A1) : A = A1 := by
  have hp : (fun x => parity A x ^^^ diffusion A x) =
      fun x => parity A1 x ^^^ diffusion A1 x := by
    funext x
    rw [← parity_theta_ref, ← parity_theta_ref, h]
  simp only [diffusion_eq] at hp
  have hpl := congrArg plane hp
  rw [plane_mix _ (parity_lt A hA), plane_mix _ (parity_lt A1 hA1)] at hpl
  have hpar : parity A = parity A1 :=
    plane_injective _ _ (parity_lt A hA) (parity_lt A1 hA1) (mixE_injective hpl)
  have hd : ∀ x, diffusion A x = diffusion A1 x := by
    intro x
    rw [diffusion_eq, diffusion_eq, hpar]
  funext x y
  have hxy := congrFun (congrFun h x) y
  simp only [theta_ref, hd x] at hxy
  exact Nat.xor_left_injective hxy

theorem rotl64_injective (v w n : Nat) (hv : v < 2 ^ 64) (hw : w < 2 ^ 64) (hn : n < 64)
    (h : rotl64 v n = rotl64 w n) : v = w := by
  apply eq_of_testBit_lt64 v w hv hw
  intro j
  have hj := j.isLt
  have hi : (j.val + n) % 64 < 64 := Nat.mod_lt _ (by decide)
  have hv1 := rotl64_testBit v n ((j.val + n) % 64) hv hn hi
  have hw1 := rotl64_testBit w n ((j.val + n) % 64) hw hn hi
  have e : ((j.val + n) % 64 + 64 - n) % 64 = j.val := by omega
  rw [e] at hv1 hw1
  rw [← hv1, ← hw1, h]

theorem rho_pi_ref_injective (A A1 : State) (hA : Bounded A) (hA1 : Bounded A1)
    (h : rho_pi_ref A = rho_pi_ref A1) : A = A1 := by
  have hinv : ∀ x y : Fin 5, 3 * (2 * x + 3 * y) + y = x := by decide
  funext x y
  have hxy := congrFun (congrFun h y) (2 * x + 3 * y)
  simp only [rho_pi_ref, hinv] at hxy
  exact rotl64_injective _ _ _ (hA x y) (hA1 x y) (r_lt x y) hxy

theorem not64_testBit (v i : Nat) (hi : i < 64) : (not64 v).testBit i = !v.testBit i := by
  rw [not64, Nat.testBit_xor, Nat.testBit_two_pow_sub_one]
  simp [hi]

theorem chi_ref_testBit (B : State) (x y : Fin 5) (z : Fin 64) :
    (chi_ref B x y).testBit z.val = chi_row (fun u => (B u y).testBit z.val) x := by
  simp only [chi_ref, chi_row, Nat.testBit_xor, Nat.testBit_and, not64_testBit _ _ z.isLt]

theorem chi_ref_injective (B B1 : State) (hB : Bounded B) (hB1 : Bounded B1)
    (h : chi_ref B = chi_ref B1) : B = B1 := by
  funext x y
  apply eq_of_testBit_lt64 _ _ (hB x y) (hB1 x y)
  intro z
  have hrow : chi_row (fun u => (B u y).testBit z.val) =
      chi_row (fun u => (B1 u y).testBit z.val) := by
    funext u
    rw [← chi_ref_testBit, ← chi_ref_testBit, h]
  exact congrFun (chi_row_injective hrow) x

theorem rho_pi_ref_bounded (A : State) (hA : Bounded A) : Bounded (rho_pi_ref A) :=
  fun _ _ => rotl64_lt _ _ (hA _ _) (r_lt _ _)

theorem chi_ref_bounded (B : State) (hB : Bounded B) : Bounded (chi_ref B) :=
  fun x y => Nat.xor_lt_two_pow (hB x y) (Nat.and_lt_two_pow _ (hB _ y))

theorem round_ref_bounded (A : State) (RC : Nat) (hA : Bounded A) (hRC : RC < 2 ^ 64) :
    Bounded (round_ref A RC) := by
  have hc := chi_ref_bounded _ (rho_pi_ref_bounded _ (theta_ref_lt A hA))
  intro x y
  simp only [round_ref, State.set]
  split
  · exact Nat.xor_lt_two_pow (hc 0 0) hRC
  · exact hc x y

theorem round_ref_injective (A A1 : State) (RC : Nat) (hA : Bounded A) (hA1 : Bounded A1)
    (h : round_ref A RC = round_ref A1 RC) : A = A1 := by
  have hchi : chi_ref (rho_pi_ref (theta_ref A)) = chi_ref (rho_pi_ref (theta_ref A1)) := by
    funext x y
    have hxy := congrFun (congrFun h x) y
    simp only [round_ref, State.set] at hxy
    by_cases h0 : x = 0 ∧ y = 0
    · obtain ⟨rfl, rfl⟩ := h0
      simp only [and_self, if_true] at hxy
      exact Nat.xor_left_injective hxy
    · simpa only [if_neg h0] using hxy
  have hrho := chi_ref_injective _ _ (rho_pi_ref_bounded _ (theta_ref_lt A hA))
    (rho_pi_ref_bounded _ (theta_ref_lt A1 hA1)) hchi
  have hth := rho_pi_ref_injective _ _ (theta_ref_lt A hA) (theta_ref_lt A1 hA1) hrho
  exact theta_ref_injective A A1 hA hA1 hth

theorem round_ref_surjective (RC : Nat) (hRC : RC < 2 ^ 64) (out : State) (hout : Bounded out) :
    ∃ A : State, Bounded A ∧ round_ref A RC = out := by
  let f : (Fin 5 → Fin 5 → Fin (2 ^ 64)) → (Fin 5 → Fin 5 → Fin (2 ^ 64)) :=
    fun a x y => ⟨round_ref (fun u v => (a u v).val) RC x y,
      round_ref_bounded _ RC (fun u v => (a u v).isLt) hRC x y⟩
  have hinj : Function.Injective f := by
    intro a b hab
    have hval : round_ref (fun u v => (a u v).val) RC = round_ref (fun u v => (b u v).val) RC := by
      funext x y
      exact congrArg Fin.val (congrFun (congrFun hab x) y)
    have := round_ref_injective _ _ RC (fun u v => (a u v).isLt) (fun u v => (b u v).isLt) hval
    funext x y
    exact Fin.ext (congrFun (congrFun this x) y)
  obtain ⟨a, ha⟩ := Finite.surjective_of_injective hinj (fun x y => ⟨out x y, hout x y⟩)
  refine ⟨fun u v => (a u v).val, fun u v => (a u v).isLt, ?_⟩
  funext x y
  exact congrArg Fin.val (congrFun (congrFun ha x) y)

/-- When the undefined shift is harmless and the round constant has 64 bits, one round is
a permutation of the states of 64-bit lanes. -/
theorem round_permutation_of_harmless (wide : Nat → Nat → Nat) (RC : Nat) (hRC : RC < 2 ^ 64)
    (hw : HarmlessWide wide) :
    (∀ A : State, Bounded A → ∃ out : State, sha3_round wide A RC = .ok out ∧ Bounded out) ∧
    (∀ A A1 : State, Bounded A → Bounded A1 → A ≠ A1 →
      sha3_round wide A RC ≠ sha3_round wide A1 RC) ∧
    (∀ out : State, Bounded out →
      ∃ A : State, Bounded A ∧ sha3_round wide A RC = .ok out) := by
  refine ⟨?_, ?_, ?_⟩
  · intro A hA
    exact ⟨_, sha3_round_eq wide A RC hA hw, round_ref_bounded A RC hA hRC⟩
  · intro A A1 hA hA1 hne h
    rw [sha3_round_eq wide A RC hA hw, sha3_round_eq wide A1 RC hA1 hw] at h
    exact hne (round_ref_injective A A1 RC hA hA1 (Except.ok.inj h))
  · intro out hout
    obtain ⟨A, hA, hr⟩ := round_ref_surjective RC hRC out hout
    exact ⟨A, hA, by rw [sha3_round_eq wide A RC hA hw, hr]⟩

theorem collision_state_bounded : Bounded collision_state := by
  intro x y
  simp only [collision_state]
  split <;> decide

theorem collision_state_ne : zeroState ≠ collision_state := by
  intro h
  have h00 := congrFun (congrFun h 0) 0
  simp [zeroState, collision_state] at h00

theorem round_core_collision :
    round_core (fun _ _ => 2 ^ 64 - 1) zeroState =
      round_core (fun _ _ => 2 ^ 64 - 1) collision_state := by
  have h : ∀ x y : Fin 5, round_core (fun _ _ => 2 ^ 64 - 1) zeroState x y =
      round_core (fun _ _ => 2 ^ 64 - 1) collision_state x y := by decide
  funext x y
  exact h x y

/-- Claim C14 and the shift by 64 of line 48.  When the undefined shift is harmless (it
yields 0, or the lane itself) and the round constant has 64 bits, one round is a
permutation of the states of 64-bit lanes: it returns such a state, two different states
never give the same result, and every state is a result.  When the shift yields a word of
64 ones, the all-zero state and the state with lane `(0,0)` and the columns 2 and 3 all
ones are different states of 64-bit lanes with the same result, for every round
constant. -/
theorem sha3_round_permutation_and_shift :
    (∀ (wide : Nat → Nat → Nat) (RC : Nat), RC < 2 ^ 64 → HarmlessWide wide →
      (∀ A : State, Bounded A →
        ∃ out : State, sha3_round wide A RC = .ok out ∧ Bounded out) ∧
      (∀ A A1 : State, Bounded A → Bounded A1 → A ≠ A1 →
        sha3_round wide A RC ≠ sha3_round wide A1 RC) ∧
      (∀ out : State, Bounded out →
        ∃ A : State, Bounded A ∧ sha3_round wide A RC = .ok out)) ∧
    (Bounded zeroState ∧ Bounded collision_state ∧ zeroState ≠ collision_state ∧
      ∀ RC : Nat, sha3_round (fun _ _ => 2 ^ 64 - 1) zeroState RC =
        sha3_round (fun _ _ => 2 ^ 64 - 1) collision_state RC) := by
  refine ⟨round_permutation_of_harmless, ?_, collision_state_bounded, collision_state_ne, ?_⟩
  · intro x y; simp [zeroState]
  · intro RC
    rw [sha3_round_code, sha3_round_code, round_core_collision]

end Keccak
